import Mathlib

/-!
Verification of the simdcsv streaming pipeline (sources: simdcsv.go and
chunking.go).  The development is a shallow embedding of the pipeline logic:
configuration guards, the producer read loop, the Stage-1 header / trailer /
splitRow bookkeeping, the Stage-2 worker pool (with the worker interleaving
made an explicit schedule parameter), and the ReadAll reassembler.  Bytes are
modelled as natural numbers, 64-bit mask words as natural numbers below 2^64,
Go runes and Go ints as integers.  Components that are not part of the
repository sources (the assembly Stage-1/Stage-2 kernels and the external
encoding/csv reference parser) are modelled from the specification and marked
as such in their doc comments.
-/

namespace Simdcsv

/-! Configuration guards (simdcsv.go lines 94-98 and 150-168). -/

/-- Embedding of unicode.MaxLatin1 (0xFF). -/
def maxLatin1 : Int := 255

/-- Embedding of utf8.ValidRune: a rune is valid when it lies in [0, 0xD800)
or in (0xDFFF, 0x10FFFF]. -/
def validRune (r : Int) : Bool :=
  (0 ≤ r && r < 0xD800) || (0xDFFF < r && r ≤ 0x10FFFF)

/-- Embedding of validDelim (simdcsv.go line 96-98): a delimiter rune is valid
when it is nonzero, not a quote, not CR, not LF, a valid rune and not the
replacement character 0xFFFD. -/
def validDelim (r : Int) : Bool :=
  r ≠ 0 && r ≠ 34 && r ≠ 13 && r ≠ 10 && validRune r && r ≠ 0xFFFD

/-- Embedding of the invalid-delimiter guard of readAllStreaming (simdcsv.go
line 150): the pipeline is rejected up front when Comma equals Comment, Comma
is not a valid delimiter, or a nonzero Comment is not a valid delimiter. -/
def invalidDelimGuard (comma comment : Int) : Bool :=
  comma == comment || !validDelim comma || (comment ≠ 0 && !validDelim comment)

/-- Embedding of the whole-stream fallback guard of readAllStreaming
(simdcsv.go lines 159-161): the entire stream is handed to the external
reference parser when LazyQuotes is set, or the (nonzero) Comma exceeds
unicode.MaxLatin1, or the (nonzero) Comment exceeds unicode.MaxLatin1. -/
def wholeStreamFallbackGuard (lazyQuotes : Bool) (comma comment : Int) : Bool :=
  lazyQuotes || (comma ≠ 0 && comma > maxLatin1) || (comment ≠ 0 && comment > maxLatin1)

/-- A rune is in the ASCII subset when its code point is at most 127. -/
def isAsciiRune (r : Int) : Bool := 0 ≤ r && r ≤ 127

/-! Chunk size (simdcsv.go lines 170-173). -/

/-- Embedding of the Go expression x &^ 63 on a nonnegative int: clearing the
low six bits, i.e. rounding down to a multiple of 64. -/
def andNot63 (x : Nat) : Nat := x / 64 * 64

/-- Embedding of the chunk size computation (simdcsv.go lines 170-173):
chunkSize := 320000, then chunkSize = (chunkSize + 63) &^ 63. -/
def chunkSize : Nat := andNot63 (320000 + 63)

/-- Embedding of masksSize (simdcsv.go line 174):
((chunkSize >> 6) + 2) * 3. -/
def masksSize : Nat := (chunkSize / 64 + 2) * 3

/-! Chunk ambiguity scanner (chunking.go). -/

/-- Embedding of PREFIX_SIZE (chunking.go line 22). -/
def PREFIX_SIZE : Nat := 64 * 1024

/-- Embedding of detectQoPattern (chunking.go lines 24-35): scan adjacent
byte pairs; report true if some quote byte is immediately followed by a byte
that is neither a quote, nor the comma byte, nor a newline. -/
def detectQoPattern : List Nat → Bool
  | a :: b :: rest =>
      if a = 34 ∧ b ≠ 34 ∧ b ≠ 44 ∧ b ≠ 10 then true else detectQoPattern (b :: rest)
  | _ => false

/-- Embedding of detectOqPattern (chunking.go lines 37-48): scan adjacent
byte pairs; report true if some byte that is neither a quote, nor the comma
byte, nor a newline is immediately followed by a quote byte. -/
def detectOqPattern : List Nat → Bool
  | a :: b :: rest =>
      if b = 34 ∧ a ≠ 34 ∧ a ≠ 44 ∧ a ≠ 10 then true else detectOqPattern (b :: rest)
  | _ => false

/-- Embedding of determineAmbiguity (chunking.go lines 50-57): a prefix is
ambiguous exactly when it contains neither a Qo pattern nor an oQ pattern. -/
def determineAmbiguity (prefixChunk : List Nat) : Bool :=
  let hasQo := detectQoPattern prefixChunk
  let hasOq := detectOqPattern prefixChunk
  hasQo == false && hasOq == false

/-- Embedding of chunkStatus (chunking.go lines 59-66). -/
inductive ChunkStatus where
  | Unambigous : ChunkStatus
  | Ambigous : ChunkStatus
deriving DecidableEq, Repr

/-- Embedding of the status computation of deriveChunkResult (chunking.go
lines 72-84): the scanned region is the chunk clipped to PREFIX_SIZE; the
status is Ambigous exactly when that region contains a quote byte and
determineAmbiguity holds of it. -/
def deriveChunkStatus (chunk : List Nat) : ChunkStatus :=
  let prefixSize := min PREFIX_SIZE chunk.length
  let pfx := chunk.take prefixSize
  if pfx.contains 34 then
    (if determineAmbiguity pfx then ChunkStatus.Ambigous else ChunkStatus.Unambigous)
  else ChunkStatus.Unambigous

/-- The specification-level reading of a Qo pattern: some position holds a
quote byte whose successor is neither quote, comma, nor newline. -/
def hasQoSpec (p : List Nat) : Prop :=
  ∃ i, p.get? i = some 34 ∧ ∃ b, p.get? (i + 1) = some b ∧ b ≠ 34 ∧ b ≠ 44 ∧ b ≠ 10

/-- The specification-level reading of an oQ pattern: some position holds a
byte that is neither quote, comma, nor newline whose successor is a quote. -/
def hasOqSpec (p : List Nat) : Prop :=
  ∃ i a, p.get? i = some a ∧ a ≠ 34 ∧ a ≠ 44 ∧ a ≠ 10 ∧ p.get? (i + 1) = some 34

lemma detectQoPattern_iff (p : List Nat) : detectQoPattern p = true ↔ hasQoSpec p := by
  induction p with
  | nil =>
    constructor
    · intro h; exact absurd h (by simp [detectQoPattern])
    · rintro ⟨i, hi, -⟩; simp at hi
  | cons a rest ih =>
    cases rest with
    | nil =>
      constructor
      · intro h; exact absurd h (by simp [detectQoPattern])
      · rintro ⟨i, hi, b, hb, -⟩
        cases i with
        | zero => simp at hb
        | succ j => simp at hi
    | cons b r =>
      rw [show detectQoPattern (a :: b :: r)
          = if a = 34 ∧ b ≠ 34 ∧ b ≠ 44 ∧ b ≠ 10 then true
            else detectQoPattern (b :: r) from rfl]
      by_cases hc : a = 34 ∧ b ≠ 34 ∧ b ≠ 44 ∧ b ≠ 10
      · rw [if_pos hc]
        simp only [true_iff]
        exact ⟨0, by simp [hc.1], b, rfl, hc.2.1, hc.2.2.1, hc.2.2.2⟩
      · rw [if_neg hc, ih]
        constructor
        · rintro ⟨i, hi, c, hci, h1, h2, h3⟩
          exact ⟨i + 1, hi, c, hci, h1, h2, h3⟩
        · rintro ⟨i, hi, c, hci, h1, h2, h3⟩
          cases i with
          | zero =>
            exfalso
            apply hc
            have hab : a = 34 := by simpa using hi
            have hcb : b = c := by simpa using hci
            subst hcb
            exact ⟨hab, h1, h2, h3⟩
          | succ j =>
            exact ⟨j, hi, c, hci, h1, h2, h3⟩

lemma detectOqPattern_iff (p : List Nat) : detectOqPattern p = true ↔ hasOqSpec p := by
  induction p with
  | nil =>
    constructor
    · intro h; exact absurd h (by simp [detectOqPattern])
    · rintro ⟨i, c, hi, -⟩; simp at hi
  | cons a rest ih =>
    cases rest with
    | nil =>
      constructor
      · intro h; exact absurd h (by simp [detectOqPattern])
      · rintro ⟨i, c, hi, -, -, -, hq⟩
        cases i with
        | zero => simp at hq
        | succ j => simp at hi
    | cons b r =>
      rw [show detectOqPattern (a :: b :: r)
          = if b = 34 ∧ a ≠ 34 ∧ a ≠ 44 ∧ a ≠ 10 then true
            else detectOqPattern (b :: r) from rfl]
      by_cases hc : b = 34 ∧ a ≠ 34 ∧ a ≠ 44 ∧ a ≠ 10
      · rw [if_pos hc]
        simp only [true_iff]
        exact ⟨0, a, rfl, hc.2.1, hc.2.2.1, hc.2.2.2, by simp [hc.1]⟩
      · rw [if_neg hc, ih]
        constructor
        · rintro ⟨i, c, hci, h1, h2, h3, hq⟩
          exact ⟨i + 1, c, hci, h1, h2, h3, hq⟩
        · rintro ⟨i, c, hci, h1, h2, h3, hq⟩
          cases i with
          | zero =>
            exfalso
            apply hc
            have hac : a = c := by simpa using hci
            have hb : b = 34 := by simpa using hq
            subst hac
            exact ⟨hb, h1, h2, h3⟩
          | succ j =>
            exact ⟨j, c, hci, h1, h2, h3, hq⟩

/-! Producer read loop (simdcsv.go lines 179-218).  The producer reads from
a bufio.Reader wrapping the input source; for chunk-sized reads with an empty
internal buffer, bufio hands back exactly what the underlying source's Read
returned, so the loop is modelled directly over the sequence of (bytes, err)
results delivered to it. -/

/-- Error value accompanying a Read: io.EOF or any other error. -/
inductive ReadErrKind where
  | eof : ReadErrKind
  | other : String → ReadErrKind
deriving DecidableEq, Repr

/-- One Read result: the bytes read together with the error returned. -/
structure ReadResult where
  bytes : List Nat
  err : Option ReadErrKind
deriving DecidableEq, Repr

/-- Embedding of chunkIn (simdcsv.go lines 124-127): a buffer plus the
flag marking the final chunk of the stream. -/
structure ChunkIn where
  buf : List Nat
  last : Bool
deriving DecidableEq, Repr

/-- Embedding of the producer's main loop (simdcsv.go lines 199-217), carrying
the previously read chunk.  On a read returning io.EOF with data the code
panics (modelled as an error result); on io.EOF with no data, or on any other
read error, the carried chunk is emitted marked last and the loop stops — the
non-EOF error itself is only logged, never forwarded.  An exhausted read list
means the source never reported EOF; well-formed sources always do, so that
case yields no further chunks here. -/
def producerLoop (chunk : List Nat) : List ReadResult → Except String (List ChunkIn)
  | [] => .ok []
  | r :: rest =>
    match r.err with
    | some ReadErrKind.eof =>
        if r.bytes ≠ [] then .error "last buffer should be empty"
        else .ok [⟨chunk, true⟩]
    | some (ReadErrKind.other _) => .ok [⟨chunk, true⟩]
    | none => (producerLoop r.bytes rest).map (fun l => ⟨chunk, false⟩ :: l)

/-- Embedding of the producer goroutine (simdcsv.go lines 186-217): the first
read is handled specially — io.EOF or any other error ends the stream with no
chunks at all (the error is only logged) — and then the main loop runs. -/
def producer : List ReadResult → Except String (List ChunkIn)
  | [] => .ok []
  | r :: rest =>
    match r.err with
    | some ReadErrKind.eof => .ok []
    | some (ReadErrKind.other _) => .ok []
    | none => producerLoop r.bytes rest

/-! ReadAll reassembly (simdcsv.go lines 428-469): outputs are consumed from
the channel; an output whose sequence exceeds the next expected one is parked
in the reorder map, otherwise its records are appended, the expected sequence
is incremented, and the map is drained while it holds the expected sequence.
The Go map is modelled as an association list with lookup, delete and
overwrite-insert. -/

/-- Embedding of recordsOutput (simdcsv.go lines 118-122). -/
structure RecordsOutput where
  sequence : Int
  records : List (List String)
  err : Option String
deriving DecidableEq, Repr

/-- Go map lookup hash[s] on the reorder buffer. -/
def mapLookup {A : Type} (s : Int) (m : List (Int × A)) : Option A :=
  (m.find? (fun kv => kv.1 == s)).map (fun kv => kv.2)

/-- Go map deletion delete(hash, s). -/
def mapDelete {A : Type} (s : Int) (m : List (Int × A)) : List (Int × A) :=
  m.filter (fun kv => kv.1 != s)

/-- Go map update hash[s] = v, keeping at most one entry per key. -/
def mapInsert {A : Type} (s : Int) (v : A) (m : List (Int × A)) : List (Int × A) :=
  (s, v) :: mapDelete s m

lemma mapLookup_nil {A : Type} (k : Int) : mapLookup k ([] : List (Int × A)) = none := rfl

lemma mapLookup_mapDelete {A : Type} (s k : Int) (m : List (Int × A)) :
    mapLookup k (mapDelete s m) = if k = s then none else mapLookup k m := by
  induction m with
  | nil => simp [mapLookup, mapDelete]
  | cons kv rest ih =>
    by_cases h1 : kv.1 = s
    · have hb : (kv.1 != s) = false := by simp [h1]
      have hstep : mapDelete s (kv :: rest) = mapDelete s rest := by
        simp [mapDelete, List.filter, hb]
      rw [hstep, ih]
      by_cases hks : k = s
      · simp [hks]
      · rw [if_neg hks, if_neg hks]
        have hk1 : (kv.1 == k) = false := by
          simp only [beq_eq_false_iff_ne, ne_eq]
          intro hcon
          exact hks (by rw [← hcon, h1])
        simp [mapLookup, List.find?, hk1]
    · have hb : (kv.1 != s) = true := bne_iff_ne.mpr h1
      have hstep : mapDelete s (kv :: rest) = kv :: mapDelete s rest := by
        simp [mapDelete, List.filter, hb]
      rw [hstep]
      by_cases hk1 : kv.1 = k
      · simp [mapLookup, List.find?, hk1, if_neg (show ¬k = s from by rw [← hk1]; exact h1)]
      · have hk1' : (kv.1 == k) = false := by simp [hk1]
        simp only [mapLookup, List.find?, hk1'] at *
        exact ih

lemma mapLookup_mapInsert {A : Type} (s k : Int) (v : A) (m : List (Int × A)) :
    mapLookup k (mapInsert s v m) = if k = s then some v else mapLookup k m := by
  by_cases hks : k = s
  · subst hks
    simp [mapInsert, mapLookup, List.find?]
  · have hk1 : (s == k) = false := by
      simp only [beq_eq_false_iff_ne, ne_eq]
      exact fun hcon => hks hcon.symm
    have : mapLookup k (mapInsert s v m) = mapLookup k (mapDelete s m) := by
      simp [mapInsert, mapLookup, List.find?, hk1]
    rw [this, mapLookup_mapDelete]
    simp [hks]

lemma mapDelete_length_lt {A : Type} (s : Int) (m : List (Int × A))
    (v : A) (h : mapLookup s m = some v) :
    (mapDelete s m).length < m.length := by
  rw [mapDelete, List.length_filter_lt_length_iff_exists]
  unfold mapLookup at h
  cases hf : m.find? (fun kv => kv.1 == s) with
  | none => rw [hf] at h; cases h
  | some kv =>
    refine ⟨kv, List.mem_of_find?_eq_some hf, ?_⟩
    have := List.find?_some hf
    simp only [beq_iff_eq] at this
    simp [this]

/-- Embedding of the drain loop inside nextblock-style reassembly (simdcsv.go
lines 452-461): while the reorder map holds the expected sequence, append its
records, remove the entry and advance.  Each iteration removes one map entry,
so the loop runs at most hash.length times; the fuel hash.length + 1 is
therefore never exhausted and the function equals Go's unbounded loop. -/
def drainLoopF : Nat → List (List String) → List (Int × List (List String)) → Int →
    List (List String) × List (Int × List (List String)) × Int
  | 0, records, hash, sequence => (records, hash, sequence)
  | fuel + 1, records, hash, sequence =>
    match mapLookup sequence hash with
    | some v => drainLoopF fuel (records ++ v) (mapDelete sequence hash) (sequence + 1)
    | none => (records, hash, sequence)

/-- The drain loop with its exact fuel. -/
def drainLoop (records : List (List String)) (hash : List (Int × List (List String)))
    (sequence : Int) : List (List String) × List (Int × List (List String)) × Int :=
  drainLoopF (hash.length + 1) records hash sequence

/-- State of the ReadAll reassembly loop: the records emitted so far, the
reorder map, and the next expected sequence number. -/
structure ReassemblyState where
  records : List (List String)
  hash : List (Int × List (List String))
  sequence : Int

/-- Embedding of the ReadAll consumer loop (simdcsv.go lines 434-462): an
output with an error drains the channel and surfaces the error; an output
with sequence above the expected one is parked; otherwise its records are
appended, the expected sequence advances and the reorder map is drained. -/
def readAllGo : ReassemblyState → List RecordsOutput → Except String (List (List String))
  | st, [] => Except.ok st.records
  | st, o :: rest =>
    match o.err with
    | some e => Except.error e
    | none =>
      if o.sequence > st.sequence then
        readAllGo ⟨st.records, mapInsert o.sequence o.records st.hash, st.sequence⟩ rest
      else
        match drainLoop (st.records ++ o.records) st.hash (st.sequence + 1) with
        | (recs, h, sq) => readAllGo ⟨recs, h, sq⟩ rest

/-- Embedding of ReadAll's reassembly of the output channel (simdcsv.go lines
428-469), starting from no records, an empty reorder map, and sequence 0. -/
def readAllReassemble (outs : List RecordsOutput) : Except String (List (List String)) :=
  readAllGo ⟨[], [], 0⟩ outs

/-- The records carried by the (unique) output with sequence k. -/
def recsAt (outs : List RecordsOutput) (k : Nat) : List (List String) :=
  ((outs.find? (fun o => o.sequence == (k : Int))).map (fun o => o.records)).getD []

lemma recsAt_eq_of_mem (outs : List RecordsOutput)
    (hnodup : (outs.map (fun o => o.sequence)).Nodup)
    (o : RecordsOutput) (ho : o ∈ outs) (k : Nat) (hk : o.sequence = (k : Int)) :
    recsAt outs k = o.records := by
  induction outs with
  | nil => cases ho
  | cons o' rest ih =>
    have hnodups : (o'.sequence :: rest.map (fun x => x.sequence)).Nodup := by
      simpa using hnodup
    by_cases hh : o'.sequence = (k : Int)
    · have hpred : (o'.sequence == (k : Int)) = true := by simp [hh]
      have hf : (o' :: rest).find? (fun x => x.sequence == (k : Int)) = some o' :=
        List.find?_cons_of_pos _ hpred
      rcases List.mem_cons.mp ho with rfl | hmem
      · simp [recsAt, hf]
      · exfalso
        refine (List.nodup_cons.mp hnodups).1 ?_
        rw [hh, ← hk]
        exact List.mem_map_of_mem _ hmem
    · have hpred : (o'.sequence == (k : Int)) = false := by simp [hh]
      have hf : (o' :: rest).find? (fun x => x.sequence == (k : Int))
          = rest.find? (fun x => x.sequence == (k : Int)) :=
        List.find?_cons_of_neg _ (by simp [hpred])
      rcases List.mem_cons.mp ho with rfl | hmem
      · exact absurd hk hh
      · have := ih (List.nodup_cons.mp hnodups).2 hmem
        simpa [recsAt, hf] using this

lemma drainLoopF_spec (f : Nat → List (List String)) (G : Nat → Prop) :
    ∀ (d t fuel : Nat) (hash : List (Int × List (List String)))
      (records : List (List String)),
    d ≤ fuel →
    (∀ k : Nat, t ≤ k → k < t + d → G k) → ¬ G (t + d) →
    (∀ k : Nat, G k → t ≤ k → mapLookup (k : Int) hash = some (f k)) →
    (∀ k : Nat, ¬(G k ∧ t ≤ k) → mapLookup (k : Int) hash = none) →
    ∃ hash',
      drainLoopF fuel records hash (t : Int)
        = (records ++ ((List.range' t d).map f).flatten, hash', ((t + d : Nat) : Int)) ∧
      (∀ k : Nat, G k → t + d ≤ k → mapLookup (k : Int) hash' = some (f k)) ∧
      (∀ k : Nat, ¬(G k ∧ t + d ≤ k) → mapLookup (k : Int) hash' = none) := by
  intro d
  induction d with
  | zero =>
    intro t fuel hash records hfuel hGlt hGq hsome hnone
    have hlook : mapLookup (t : Int) hash = none := by
      refine hnone t ?_
      rintro ⟨hg, -⟩
      exact hGq (by simpa using hg)
    refine ⟨hash, ?_, by simpa using hsome, by simpa using hnone⟩
    cases fuel with
    | zero => simp [drainLoopF]
    | succ fu => simp [drainLoopF, hlook]
  | succ d ih =>
    intro t fuel hash records hfuel hGlt hGq hsome hnone
    have hGt : G t := hGlt t le_rfl (by omega)
    have hlook : mapLookup (t : Int) hash = some (f t) := hsome t hGt le_rfl
    cases fuel with
    | zero => omega
    | succ fu =>
      have hstep : drainLoopF (fu + 1) records hash (t : Int)
          = drainLoopF fu (records ++ f t) (mapDelete (t : Int) hash) ((t : Int) + 1) := by
        simp [drainLoopF, hlook]
      have hsome' : ∀ k : Nat, G k → t + 1 ≤ k →
          mapLookup (k : Int) (mapDelete (t : Int) hash) = some (f k) := by
        intro k hg hk
        rw [mapLookup_mapDelete]
        rw [if_neg (by exact_mod_cast (by omega : ¬ k = t))]
        exact hsome k hg (by omega)
      have hnone' : ∀ k : Nat, ¬(G k ∧ t + 1 ≤ k) →
          mapLookup (k : Int) (mapDelete (t : Int) hash) = none := by
        intro k hk
        rw [mapLookup_mapDelete]
        by_cases hkt : (k : Int) = (t : Int)
        · rw [if_pos hkt]
        · rw [if_neg hkt]
          refine hnone k ?_
          rintro ⟨hg, hge⟩
          have : ¬ k = t := by exact_mod_cast hkt
          exact hk ⟨hg, by omega⟩
      obtain ⟨hash', heq, hs', hn'⟩ :=
        ih (t + 1) fu (mapDelete (t : Int) hash) (records ++ f t) (by omega)
          (fun k h1 h2 => hGlt k (by omega) (by omega))
          (by
            intro hg
            exact hGq (by
              have : t + 1 + d = t + (d + 1) := by omega
              rwa [this] at hg))
          hsome' hnone'
      refine ⟨hash', ?_, ?_, ?_⟩
      · rw [hstep]
        have hcast : ((t : Int) + 1) = ((t + 1 : Nat) : Int) := by push_cast; ring
        rw [hcast, heq]
        have hr : List.range' t (d + 1) = t :: List.range' (t + 1) d := List.range'_succ t d 1
        rw [hr]
        simp only [List.map_cons, List.flatten_cons, List.append_assoc]
        have : t + 1 + d = t + (d + 1) := by omega
        rw [this]
      · intro k hg hk
        exact hs' k hg (by omega)
      · intro k hk
        refine hn' k ?_
        rintro ⟨hg, hge⟩
        exact hk ⟨hg, by omega⟩

lemma drain_entries_le_length (f : Nat → List (List String)) (G : Nat → Prop) :
    ∀ (d t : Nat) (hash : List (Int × List (List String))),
    (∀ k : Nat, t ≤ k → k < t + d → G k) →
    (∀ k : Nat, G k → t ≤ k → mapLookup (k : Int) hash = some (f k)) →
    d ≤ hash.length := by
  intro d
  induction d with
  | zero => intro t hash _ _; omega
  | succ d ih =>
    intro t hash hGlt hsome
    have hGt : G t := hGlt t le_rfl (by omega)
    have hlook : mapLookup (t : Int) hash = some (f t) := hsome t hGt le_rfl
    have hlt := mapDelete_length_lt (t : Int) hash (f t) hlook
    have hrec : d ≤ (mapDelete (t : Int) hash).length := by
      refine ih (t + 1) (mapDelete (t : Int) hash)
        (fun k h1 h2 => hGlt k (by omega) (by omega)) ?_
      intro k hg hk
      rw [mapLookup_mapDelete]
      rw [if_neg (by exact_mod_cast (by omega : ¬ k = t))]
      exact hsome k hg (by omega)
    omega

lemma flatten_range_split (f : Nat → List (List String)) (q d : Nat) :
    (((List.range q).map f).flatten ++ f q) ++ ((List.range' (q + 1) d).map f).flatten
      = ((List.range (q + 1 + d)).map f).flatten := by
  have h1 : List.range (q + 1 + d) = List.range (q + 1) ++ List.range' (q + 1) d := by
    rw [List.range_eq_range', List.range_eq_range']
    have h := (List.range'_append 0 (q + 1) d 1).symm
    rw [show q + 1 + d = d + (q + 1) from by omega]
    simpa using h
  have h2 : List.range (q + 1) = List.range q ++ [q] := List.range_succ q
  rw [h1, h2]
  simp [List.flatten_append, List.map_append]

lemma drainLoop_spec (f : Nat → List (List String)) (G : Nat → Prop)
    (d t : Nat) (hash : List (Int × List (List String)))
    (records : List (List String))
    (hGlt : ∀ k : Nat, t ≤ k → k < t + d → G k) (hGq : ¬ G (t + d))
    (hsome : ∀ k : Nat, G k → t ≤ k → mapLookup (k : Int) hash = some (f k))
    (hnone : ∀ k : Nat, ¬(G k ∧ t ≤ k) → mapLookup (k : Int) hash = none) :
    ∃ hash',
      drainLoop records hash (t : Int)
        = (records ++ ((List.range' t d).map f).flatten, hash', ((t + d : Nat) : Int)) ∧
      (∀ k : Nat, G k → t + d ≤ k → mapLookup (k : Int) hash' = some (f k)) ∧
      (∀ k : Nat, ¬(G k ∧ t + d ≤ k) → mapLookup (k : Int) hash' = none) := by
  have hlen := drain_entries_le_length f G d t hash hGlt hsome
  exact drainLoopF_spec f G d t (hash.length + 1) hash records (by omega) hGlt hGq hsome hnone

lemma readAllGo_spec (f : Nat → List (List String)) (n : Nat) :
    ∀ (rest : List RecordsOutput) (P : Nat → Prop) (q : Nat)
      (hash : List (Int × List (List String))) (recs : List (List String)),
    (∀ k : Nat, k < q → P k) → ¬ P q →
    (∀ k : Nat, P k → k < n) →
    recs = ((List.range q).map f).flatten →
    (∀ k : Nat, P k → q < k → mapLookup (k : Int) hash = some (f k)) →
    (∀ k : Nat, ¬(P k ∧ q < k) → mapLookup (k : Int) hash = none) →
    (∀ o ∈ rest, o.err = none ∧
      ∃ k : Nat, k < n ∧ o.sequence = (k : Int) ∧ o.records = f k ∧ ¬ P k) →
    (rest.map (fun o => o.sequence)).Nodup →
    (∀ k : Nat, k < n → ¬ P k → (k : Int) ∈ rest.map (fun o => o.sequence)) →
    readAllGo ⟨recs, hash, (q : Int)⟩ rest = Except.ok (((List.range n).map f).flatten) := by
  intro rest
  induction rest with
  | nil =>
    intro P q hash recs hq1 hq2 hPn hrecs hsome hnone hrest hnodup hcover
    have hall : ∀ k : Nat, k < n → P k := by
      intro k hk
      by_contra hcon
      have := hcover k hk hcon
      simp at this
    have hqn : q = n := by
      rcases Nat.lt_trichotomy q n with h | h | h
      · exact absurd (hall q h) hq2
      · exact h
      · exact absurd (hPn n (hq1 n h)) (lt_irrefl n)
    subst hqn
    simp [readAllGo, hrecs]
  | cons o rest' ih =>
    intro P q hash recs hq1 hq2 hPn hrecs hsome hnone hrest hnodup hcover
    obtain ⟨herr, k0, hk0n, hseq, hrec, hP0⟩ := hrest o (by simp)
    have hnodups : (o.sequence :: rest'.map (fun o => o.sequence)).Nodup := by
      simpa using hnodup
    have hnodup' : (rest'.map (fun o => o.sequence)).Nodup := (List.nodup_cons.mp hnodups).2
    have hheadnot : o.sequence ∉ rest'.map (fun o => o.sequence) :=
      (List.nodup_cons.mp hnodups).1
    by_cases hgt : q < k0
    · -- parked in the reorder map
      have hif : o.sequence > (q : Int) := by
        rw [hseq]
        exact_mod_cast hgt
      have hunf : readAllGo ⟨recs, hash, (q : Int)⟩ (o :: rest')
          = readAllGo ⟨recs, mapInsert o.sequence o.records hash, (q : Int)⟩ rest' := by
        simp only [readAllGo, herr]
        rw [if_pos hif]
      rw [hunf, hseq, hrec]
      refine ih (fun k => P k ∨ k = k0) q (mapInsert (k0 : Int) (f k0) hash) recs
        (fun k hk => Or.inl (hq1 k hk)) ?_ ?_ hrecs ?_ ?_ ?_ hnodup' ?_
      · rintro (h | h)
        · exact hq2 h
        · omega
      · rintro k (h | rfl)
        · exact hPn k h
        · exact hk0n
      · intro k hk hqk
        rw [mapLookup_mapInsert]
        by_cases hkk : (k : Int) = (k0 : Int)
        · have : k = k0 := by exact_mod_cast hkk
          subst this
          rw [if_pos hkk]
        · rw [if_neg hkk]
          rcases hk with h | h
          · exact hsome k h hqk
          · exact absurd (by exact_mod_cast congrArg (Nat.cast : Nat → Int) h) hkk
      · intro k hk
        rw [mapLookup_mapInsert]
        by_cases hkk : (k : Int) = (k0 : Int)
        · have hkeq : k = k0 := by exact_mod_cast hkk
          subst hkeq
          exact absurd ⟨Or.inr rfl, hgt⟩ hk
        · rw [if_neg hkk]
          refine hnone k ?_
          rintro ⟨hp, hq⟩
          exact hk ⟨Or.inl hp, hq⟩
      · intro o' ho'
        obtain ⟨herr', k', hk'n, hseq', hrec', hP'⟩ := hrest o' (by simp [ho'])
        refine ⟨herr', k', hk'n, hseq', hrec', ?_⟩
        rintro (h | rfl)
        · exact hP' h
        · refine hheadnot ?_
          rw [hseq, ← hseq']
          exact List.mem_map_of_mem _ ho'
      · intro k hk hnk
        have hknP : ¬ P k := fun h => hnk (Or.inl h)
        have hkk0 : k ≠ k0 := fun h => hnk (Or.inr h)
        have := hcover k hk hknP
        simp only [List.map_cons, List.mem_cons] at this
        rcases this with h | h
        · rw [hseq] at h
          exact absurd (by exact_mod_cast h : k = k0) hkk0
        · exact h
    · -- in sequence: k0 = q, append and drain
      have hk0q : k0 = q := by
        rcases Nat.lt_trichotomy k0 q with h | h | h
        · exact absurd (hq1 k0 h) hP0
        · exact h
        · omega
      subst hk0q
      have hif : ¬ (o.sequence > (k0 : Int)) := by
        rw [hseq]
        omega
      classical
      have hex : ∃ m, k0 + 1 ≤ m ∧ ¬ P m :=
        ⟨n, by omega, fun h => absurd (hPn n h) (lt_irrefl n)⟩
      set m := Nat.find hex with hm
      obtain ⟨hm1, hm2⟩ := Nat.find_spec hex
      have hmin : ∀ j : Nat, k0 + 1 ≤ j → j < m → P j := by
        intro j h1 h2
        by_contra hc
        exact Nat.find_min hex h2 ⟨h1, hc⟩
      obtain ⟨hash', heq, hs', hn'⟩ :=
        drainLoop_spec f (fun k => P k ∧ k0 < k) (m - (k0 + 1)) (k0 + 1) hash
          (recs ++ o.records)
          (fun k h1 h2 => ⟨hmin k h1 (by omega), by omega⟩)
          (by
            rw [show k0 + 1 + (m - (k0 + 1)) = m from by omega]
            rintro ⟨hp, -⟩
            exact hm2 hp)
          (fun k hk _ => hsome k hk.1 hk.2)
          (by
            intro k hk
            refine hnone k ?_
            rintro ⟨hp, hq⟩
            exact hk ⟨⟨hp, hq⟩, by omega⟩)
      rw [show k0 + 1 + (m - (k0 + 1)) = m from by omega] at heq hs' hn'
      have hunf : readAllGo ⟨recs, hash, (k0 : Int)⟩ (o :: rest')
          = readAllGo ⟨recs ++ o.records ++ ((List.range' (k0 + 1) (m - (k0 + 1))).map f).flatten,
              hash', (m : Int)⟩ rest' := by
        simp only [readAllGo, herr]
        rw [if_neg hif]
        have hcast : (k0 : Int) + 1 = ((k0 + 1 : Nat) : Int) := by push_cast; ring
        rw [hcast, heq]
      rw [hunf]
      have hrecs' : recs ++ o.records ++ ((List.range' (k0 + 1) (m - (k0 + 1))).map f).flatten
          = ((List.range m).map f).flatten := by
        rw [hrecs, hrec, flatten_range_split f k0 (m - (k0 + 1)),
          show k0 + 1 + (m - (k0 + 1)) = m from by omega]
      rw [hrecs']
      refine ih (fun k => P k ∨ k = k0) m hash'
        (((List.range m).map f).flatten) ?_ ?_ ?_ rfl ?_ ?_ ?_ hnodup' ?_
      · intro k hk
        rcases Nat.lt_trichotomy k k0 with h | h | h
        · exact Or.inl (hq1 k h)
        · exact Or.inr h
        · exact Or.inl (hmin k (by omega) hk)
      · rintro (h | h)
        · exact hm2 h
        · omega
      · rintro k (h | rfl)
        · exact hPn k h
        · exact hk0n
      · intro k hk hmk
        have hkq : k ≠ k0 := by omega
        rcases hk with h | h
        · exact hs' k ⟨h, by omega⟩ (by omega)
        · exact absurd h hkq
      · intro k hk
        refine hn' k ?_
        rintro ⟨⟨hp, hqk⟩, hmk⟩
        by_cases hkm : k = m
        · exact hm2 (by rwa [hkm] at hp)
        · exact hk ⟨Or.inl hp, by omega⟩
      · intro o' ho'
        obtain ⟨herr', k', hk'n, hseq', hrec', hP'⟩ := hrest o' (by simp [ho'])
        refine ⟨herr', k', hk'n, hseq', hrec', ?_⟩
        rintro (h | rfl)
        · exact hP' h
        · refine hheadnot ?_
          rw [hseq, ← hseq']
          exact List.mem_map_of_mem _ ho'
      · intro k hk hnk
        have hknP : ¬ P k := fun h => hnk (Or.inl h)
        have hkq : k ≠ k0 := fun h => hnk (Or.inr h)
        have := hcover k hk hknP
        simp only [List.map_cons, List.mem_cons] at this
        rcases this with h | h
        · rw [hseq] at h
          exact absurd (by exact_mod_cast h : k = k0) hkq
        · exact h

/-- Reassembly of a full set of error-free outputs carrying sequences
0..n-1: the result is the concatenation of the per-sequence record lists in
ascending sequence order, regardless of arrival order. -/
lemma readAllReassemble_perm (outs : List RecordsOutput) (n : Nat)
    (f : Nat → List (List String))
    (herr : ∀ o ∈ outs, o.err = none)
    (hseq : ∀ o ∈ outs, ∃ k : Nat, k < n ∧ o.sequence = (k : Int) ∧ o.records = f k)
    (hnodup : (outs.map (fun o => o.sequence)).Nodup)
    (hcover : ∀ k : Nat, k < n → (k : Int) ∈ outs.map (fun o => o.sequence)) :
    readAllReassemble outs = Except.ok (((List.range n).map f).flatten) := by
  unfold readAllReassemble
  have h := readAllGo_spec f n outs (fun _ => False) 0 [] []
    (fun k hk => absurd hk (Nat.not_lt_zero k)) (fun h => h) (fun k h => h.elim)
    (by simp) (fun k h => h.elim) (fun k _ => mapLookup_nil k)
    (by
      intro o ho
      obtain ⟨k, h1, h2, h3⟩ := hseq o ho
      exact ⟨herr o ho, k, h1, h2, h3, fun hh => hh⟩)
    hnodup (fun k hk _ => hcover k hk)
  exact_mod_cast h

/-- Reassembly under a permutation hypothesis: if the emitted sequences are a
permutation of 0..n-1 and no output carries an error, ReadAll produces the
records in ascending sequence order. -/
lemma readAllReassemble_of_perm (outs : List RecordsOutput) (n : Nat)
    (herr : ∀ o ∈ outs, o.err = none)
    (hperm : List.Perm (outs.map (fun o => o.sequence)) ((List.range n).map (fun k : Nat => (k : Int)))) :
    readAllReassemble outs = Except.ok (((List.range n).map (recsAt outs)).flatten) := by
  have hinj : Function.Injective (fun k : Nat => (k : Int)) := fun a b h => by
    have hab : (a : Int) = (b : Int) := h
    exact_mod_cast hab
  have hnodupT : ((List.range n).map (fun k : Nat => (k : Int))).Nodup :=
    (List.nodup_range n).map hinj
  have hnodup : (outs.map (fun o => o.sequence)).Nodup := hperm.nodup_iff.mpr hnodupT
  refine readAllReassemble_perm outs n (recsAt outs) herr ?_ hnodup ?_
  · intro o ho
    have hmem : o.sequence ∈ (List.range n).map (fun k : Nat => (k : Int)) :=
      hperm.mem_iff.mp (List.mem_map_of_mem _ ho)
    obtain ⟨k, hk, hke⟩ := List.mem_map.mp hmem
    exact ⟨k, List.mem_range.mp hk, hke.symm,
      (recsAt_eq_of_mem outs hnodup o ho k hke.symm).symm⟩
  · intro k hk
    exact hperm.mem_iff.mpr (List.mem_map_of_mem _ (List.mem_range.mpr hk))

/-! The streaming Read path (simdcsv.go lines 471-554): Read pulls rows from
the current block and calls nextblock to advance; nextblock first scans the
reorder map, then consumes the channel. -/

/-- Reassembly state of the streaming Read path (the Reader fields used by
nextblock, simdcsv.go lines 85-91): the current block, the reorder map
holding whole recordsOutput values, the next expected sequence, and the
remaining channel contents. -/
structure ReadState where
  records : List (List String)
  currrecord : Nat
  sequence : Int
  hash : List (Int × RecordsOutput)
  chan : List RecordsOutput

/-- Outcome of the first loop of nextblock: fall through to the channel loop
at a given cursor, return a block, or surface a parked error. -/
inductive HashLoopResult where
  | proceed : Int → HashLoopResult
  | done : List (List String) → Int → HashLoopResult
  | failed : String → HashLoopResult
deriving DecidableEq, Repr

/-- Embedding of the first loop of nextblock (simdcsv.go lines 516-532):
while the reorder map holds an entry for the expected sequence, advance past
it — empty blocks are skipped, a nonempty block is returned (surfacing its
error if set).  The loop deletes nothing, but the cursor strictly increases,
so it inspects pairwise distinct keys and iterates at most hash.length times;
the fuel hash.length + 1 used below is therefore never exhausted and the
function equals Go's unbounded loop. -/
def nextblockHashLoop : Nat → List (Int × RecordsOutput) → Int → HashLoopResult
  | 0, _, sequence => HashLoopResult.proceed sequence
  | fuel + 1, hash, sequence =>
    match mapLookup sequence hash with
    | some rcrds =>
        if rcrds.records = [] then nextblockHashLoop fuel hash (sequence + 1)
        else
          match rcrds.err with
          | some e => HashLoopResult.failed e
          | none => HashLoopResult.done rcrds.records (sequence + 1)
    | none => HashLoopResult.proceed sequence

/-- Embedding of the channel loop of nextblock (simdcsv.go lines 533-553):
outputs above the cursor are parked, the output at the cursor is consumed
(deleting any parked duplicate, surfacing its error, skipping it when empty),
outputs below the cursor are dropped, and channel exhaustion is io.EOF
(modelled as error none). -/
def nextblockChanLoop : List RecordsOutput → List (Int × RecordsOutput) → Int →
    Except (Option String) ReadState
  | [], _, _ => Except.error none
  | rcrds :: rest, hash, sequence =>
    if rcrds.sequence > sequence then
      nextblockChanLoop rest (mapInsert rcrds.sequence rcrds hash) sequence
    else if rcrds.sequence = sequence then
      match rcrds.err with
      | some e => Except.error (some e)
      | none =>
        if rcrds.records = [] then
          nextblockChanLoop rest (mapDelete rcrds.sequence hash) (sequence + 1)
        else
          Except.ok ⟨rcrds.records, 0, sequence + 1, mapDelete rcrds.sequence hash, rest⟩
    else
      nextblockChanLoop rest hash sequence

/-- Embedding of nextblock (simdcsv.go lines 514-554). -/
def nextblockModel (st : ReadState) : Except (Option String) ReadState :=
  match nextblockHashLoop (st.hash.length + 1) st.hash st.sequence with
  | HashLoopResult.failed e => Except.error (some e)
  | HashLoopResult.done recs sq => Except.ok ⟨recs, 0, sq, st.hash, st.chan⟩
  | HashLoopResult.proceed sq => nextblockChanLoop st.chan st.hash sq

lemma nextblockHashLoop_ascending (fuel : Nat) :
    ∀ (hash : List (Int × RecordsOutput)) (sequence : Int),
    (∀ sq', nextblockHashLoop fuel hash sequence = HashLoopResult.proceed sq' →
      sequence ≤ sq') ∧
    (∀ recs sq', nextblockHashLoop fuel hash sequence = HashLoopResult.done recs sq' →
      sequence < sq') := by
  induction fuel with
  | zero =>
    intro hash sequence
    constructor
    · intro sq' h
      simp only [nextblockHashLoop] at h
      cases h
      exact le_rfl
    · intro recs sq' h
      simp only [nextblockHashLoop] at h
      cases h
  | succ fu ih =>
    intro hash sequence
    constructor
    · intro sq' h
      simp only [nextblockHashLoop] at h
      split at h
      · split at h
        · have := (ih hash (sequence + 1)).1 sq' h
          omega
        · split at h
          · cases h
          · cases h
      · cases h
        exact le_rfl
    · intro recs sq' h
      simp only [nextblockHashLoop] at h
      split at h
      · split at h
        · have := (ih hash (sequence + 1)).2 recs sq' h
          omega
        · split at h
          · cases h
          · cases h
            omega
      · cases h

lemma nextblockChanLoop_ascending :
    ∀ (chan : List RecordsOutput) (hash : List (Int × RecordsOutput)) (sequence : Int)
      (st' : ReadState),
    nextblockChanLoop chan hash sequence = Except.ok st' → sequence < st'.sequence := by
  intro chan
  induction chan with
  | nil =>
    intro hash sequence st' h
    simp only [nextblockChanLoop] at h
    cases h
  | cons rcrds rest ih =>
    intro hash sequence st' h
    simp only [nextblockChanLoop] at h
    split at h
    · exact ih _ sequence st' h
    · split at h
      · split at h
        · cases h
        · split at h
          · have := ih _ (sequence + 1) st' h
            omega
          · cases h
            simp only []
            omega
      · exact ih _ sequence st' h

lemma nextblock_ascending (st st' : ReadState)
    (h : nextblockModel st = Except.ok st') : st.sequence < st'.sequence := by
  unfold nextblockModel at h
  split at h
  · cases h
  · rename_i recs sq hl
    cases h
    exact (nextblockHashLoop_ascending (st.hash.length + 1) st.hash st.sequence).2 recs sq hl
  · rename_i sq hl
    have h1 := (nextblockHashLoop_ascending (st.hash.length + 1) st.hash st.sequence).1 sq hl
    have h2 := nextblockChanLoop_ascending st.chan st.hash sq st' h
    omega

/-! Stage-2 worker pool (simdcsv.go lines 225-239 and 305-401).  Two workers
consume preprocessed chunks, share the atomic fields-per-record counter, and
send recordsOutput values onto the output channel.  The goroutine
interleaving is made explicit as a schedule: at each step one worker either
processes its next chunk (performing the shared-counter read-modify-write of
ensureFieldsPerRecord) or sends its computed output, two separate atomic
actions in the code.  Every schedule of this model corresponds to a legal
execution of the Go program in which each worker's chunk processing is not
interleaved at a finer grain. -/

/-- Modelled from the spec: the rows produced by the external reference CSV
parser (Go's encoding/csv, not part of this repository) on an unquoted
payload — rows are newline-separated (blank lines skipped, as encoding/csv
does), fields are delimiter-separated; the delimiter is the comma, matching
the configurations exercised here. -/
def refRows (data : List Char) : List (List String) :=
  ((data.splitOn '\n').filter (fun l => l ≠ [])).map
    (fun l => (l.splitOn ',').map (fun cs => String.mk cs))

/-- Modelled from the spec: the fields_per_record policy of the external
reference parser (spec section 6): negative disables the check, zero pins to
the first row's field count, positive enforces it; the error names the
one-based line number, within the parser's own input, of the first offending
row. -/
def refCheck (fieldsPerRecord : Int) (rows : List (List String)) :
    Except String (List (List String)) :=
  if fieldsPerRecord < 0 then Except.ok rows
  else
    let pinned : Int :=
      if fieldsPerRecord = 0 then
        (match rows with
         | [] => 0
         | r :: _ => (r.length : Int))
      else fieldsPerRecord
    match rows.findIdx? (fun r => !((r.length : Int) == pinned)) with
    | some i =>
        Except.error ("record on line " ++ toString (i + 1) ++ ": wrong number of fields")
    | none => Except.ok rows

/-- Modelled from the spec: ReadAll of the external reference parser — parse
all rows and apply the fields_per_record policy. -/
def refParseAll (fieldsPerRecord : Int) (data : List Char) :
    Except String (List (List String)) :=
  refCheck fieldsPerRecord (refRows data)

/-- Embedding of ensureFieldsPerRecord (simdcsv.go lines 567-585) acting on
the shared counter: if the counter is zero and there are records, it is set
to the first record's field count; then, if positive, every record must have
exactly that many fields, the first offending one (zero-based index i)
yielding the error naming line i + 1; on error the record list is discarded.
Returns the updated counter and the outcome. -/
def ensureFieldsPerRecord (records : List (List String)) (fieldsPerRecord : Int) :
    Int × Except String (List (List String)) :=
  let fpr1 : Int :=
    if fieldsPerRecord = 0 then
      (match records with
       | [] => fieldsPerRecord
       | r :: _ => (r.length : Int))
    else fieldsPerRecord
  if fpr1 > 0 then
    match records.findIdx? (fun r => !((r.length : Int) == fpr1)) with
    | some i =>
        (fpr1, Except.error ("record on line " ++ toString (i + 1) ++ ": wrong number of fields"))
    | none => (fpr1, Except.ok records)
  else (fpr1, Except.ok records)

/-- Embedding of the fallback closure (simdcsv.go lines 138-148): rerun a
payload through the external reference parser with the Reader's configured
FieldsPerRecord and wrap the outcome in a recordsOutput with sequence -1 (on
error the reference ReadAll returns nil records together with the error). -/
def fallback (configFpr : Int) (payload : List Char) : RecordsOutput :=
  match refParseAll configFpr payload with
  | Except.ok rcds => ⟨-1, rcds, none⟩
  | Except.error e => ⟨-1, [], some e⟩

/-- Abstraction of the chunkInfo data consumed by one stage2Streaming
iteration: the chunk's sequence, its splitRow bytes, its clipped payload
(none when chunkInfo.chunk is nil), and the outcome of the mask-driven
Stage-2 parse of the payload.  The Stage-2 kernel
stage2ParseBufferExStreaming is not part of this repository's sources;
modelled from the spec (section 4.3), its outcome is part of the model input:
none denotes parsing_error, some recs the parsed rows.  PostProcMarks,
comment filtering and leading-space trimming do not occur in the
configurations considered (no postproc marks, Comment = 0,
TrimLeadingSpace = false). -/
structure ChunkWork where
  sequence : Int
  splitRow : List Char
  payload : Option (List Char)
  stage2 : Option (List (List String))
deriving DecidableEq, Repr

/-- Embedding of one iteration of the stage2Streaming worker loop (simdcsv.go
lines 310-400): a nonempty splitRow is parsed by the reference parser via
encodingCsv, which leaves FieldsPerRecord at its zero value (an error is
emitted with sequence -1 and the worker breaks); when the chunk is present,
a Stage-2 parsing error reruns the clipped payload through the fallback and
breaks; otherwise ensureFieldsPerRecord runs on the accumulated records
against the shared counter — a mismatch likewise falls back and breaks — and
on success the records are emitted under the chunk's sequence.  Returns the
updated shared counter, the emitted output, and the break flag. -/
def stage2Step (configFpr : Int) (fpr : Int) (c : ChunkWork) :
    Int × RecordsOutput × Bool :=
  match (if c.splitRow = [] then Except.ok [] else refParseAll 0 c.splitRow :
      Except String (List (List String))) with
  | Except.error e => (fpr, ⟨-1, [], some e⟩, true)
  | Except.ok splitRecs =>
    match c.payload with
    | none => (fpr, ⟨c.sequence, splitRecs, none⟩, false)
    | some p =>
      match c.stage2 with
      | none => (fpr, fallback configFpr p, true)
      | some recs =>
        match ensureFieldsPerRecord (splitRecs ++ recs) fpr with
        | (fpr', Except.error _) => (fpr', fallback configFpr p, true)
        | (fpr', Except.ok _) => (fpr', ⟨c.sequence, splitRecs ++ recs, none⟩, false)

/-- One worker of the pool: its remaining share of the work channel and the
output it has computed but not yet sent (with its break flag). -/
structure WorkerState where
  queue : List ChunkWork
  pending : Option (RecordsOutput × Bool)

/-- State of the two-worker pool: the shared fields-per-record counter, the
two workers, and the output channel contents in send order. -/
structure PoolState where
  counter : Int
  w0 : WorkerState
  w1 : WorkerState
  outs : List RecordsOutput

/-- One scheduler step: the chosen worker (false = first, true = second)
either sends its pending output — emptying its queue when it breaks out of
its loop — or processes the next chunk of its queue against the shared
counter; a finished worker idles. -/
def poolStep (configFpr : Int) (st : PoolState) (who : Bool) : PoolState :=
  match (if who then st.w1 else st.w0).pending with
  | some ob =>
    let w' : WorkerState := ⟨if ob.2 then [] else (if who then st.w1 else st.w0).queue, none⟩
    if who then ⟨st.counter, st.w0, w', st.outs ++ [ob.1]⟩
    else ⟨st.counter, w', st.w1, st.outs ++ [ob.1]⟩
  | none =>
    match (if who then st.w1 else st.w0).queue with
    | [] => st
    | c :: rest =>
      let r := stage2Step configFpr st.counter c
      let w' : WorkerState := ⟨rest, some (r.2.1, r.2.2)⟩
      if who then ⟨r.1, st.w0, w', st.outs⟩ else ⟨r.1, w', st.w1, st.outs⟩

/-- Run of the worker pool from the initial state (counter initialised from
the Reader's FieldsPerRecord, simdcsv.go line 231) under a schedule; the
chunk split between the two workers models their pulls from the shared work
channel. -/
def runPool (configFpr : Int) (w0 w1 : List ChunkWork) (sched : List Bool) : PoolState :=
  sched.foldl (poolStep configFpr) ⟨configFpr, ⟨w0, none⟩, ⟨w1, none⟩, []⟩

/-- The pool has completed: both queues consumed and both outputs sent. -/
def poolDone (st : PoolState) : Prop :=
  st.w0.queue = [] ∧ st.w0.pending = none ∧ st.w1.queue = [] ∧ st.w1.pending = none

instance poolDoneDecidable (st : PoolState) : Decidable (poolDone st) := by
  unfold poolDone
  infer_instance

/-- The record lists a consumer calling ReadAll sees for a given worker split
and schedule: the pool's output channel reassembled in sequence order. -/
def pipelineRecords (configFpr : Int) (w0 w1 : List ChunkWork) (sched : List Bool) :
    Except String (List (List String)) :=
  readAllReassemble (runPool configFpr w0 w1 sched).outs

/-- The fully serial schedule for n chunks on one worker: each chunk is
processed and its output sent before the next chunk starts. -/
def serialSched (n : Nat) : List Bool := List.replicate (2 * n) false

/-- A chunk on which the worker takes no fallback and does not break: its
splitRow (if any) parses cleanly and, when a payload is present, Stage 2
produced rows for it. -/
def cleanChunk (c : ChunkWork) : Prop :=
  (c.splitRow = [] ∨ ∃ rs, refParseAll 0 c.splitRow = Except.ok rs) ∧
  (c.payload = none ∨ c.stage2 ≠ none)

/-- The splitRow records of a chunk (empty splitRow contributes nothing). -/
def splitRecsOf (c : ChunkWork) : List (List String) :=
  if c.splitRow = [] then []
  else
    match refParseAll 0 c.splitRow with
    | Except.ok rs => rs
    | Except.error _ => []

/-- The output a worker emits for a chunk it processes without fallback:
the splitRow records followed by the Stage-2 rows, under the chunk's own
sequence, with no error. -/
def cleanOutput (c : ChunkWork) : RecordsOutput :=
  match c.payload, c.stage2 with
  | none, _ => ⟨c.sequence, splitRecsOf c, none⟩
  | some _, some recs => ⟨c.sequence, splitRecsOf c ++ recs, none⟩
  | some _, none => ⟨c.sequence, [], none⟩

lemma cleanOutput_err (c : ChunkWork) : (cleanOutput c).err = none := by
  unfold cleanOutput
  rcases c with ⟨seq, sr, pl, st2⟩
  cases pl <;> cases st2 <;> rfl

lemma cleanOutput_sequence (c : ChunkWork) : (cleanOutput c).sequence = c.sequence := by
  unfold cleanOutput
  rcases c with ⟨seq, sr, pl, st2⟩
  cases pl <;> cases st2 <;> rfl

lemma ensureFieldsPerRecord_neg (records : List (List String)) (fpr : Int) (h : fpr < 0) :
    ensureFieldsPerRecord records fpr = (fpr, Except.ok records) := by
  unfold ensureFieldsPerRecord
  simp only [show ¬ (fpr = 0) from by omega, if_false]
  rw [if_neg (by omega : ¬ fpr > 0)]

lemma stage2Step_clean (configFpr fpr : Int) (c : ChunkWork) (hfpr : fpr < 0)
    (hc : cleanChunk c) : stage2Step configFpr fpr c = (fpr, cleanOutput c, false) := by
  obtain ⟨hsr, hpl⟩ := hc
  rcases c with ⟨seq, sr, pl, st2⟩
  by_cases h1 : sr = []
  · subst h1
    cases pl with
    | none => simp [stage2Step, cleanOutput, splitRecsOf]
    | some p =>
      cases st2 with
      | none =>
        rcases hpl with h | h
        · cases h
        · exact absurd rfl h
      | some recs =>
        simp [stage2Step, cleanOutput, splitRecsOf, ensureFieldsPerRecord_neg _ fpr hfpr]
  · obtain ⟨rs, hrs⟩ := hsr.resolve_left h1
    cases pl with
    | none => simp [stage2Step, cleanOutput, splitRecsOf, h1, hrs]
    | some p =>
      cases st2 with
      | none =>
        rcases hpl with h | h
        · cases h
        · exact absurd rfl h
      | some recs =>
        simp [stage2Step, cleanOutput, splitRecsOf, h1, hrs,
          ensureFieldsPerRecord_neg _ fpr hfpr]

lemma stage2Step_neg_fst (configFpr fpr : Int) (c : ChunkWork) (h : fpr < 0) :
    (stage2Step configFpr fpr c).1 = fpr := by
  rcases c with ⟨seq, sr, pl, st2⟩
  by_cases h1 : sr = []
  · subst h1
    cases pl with
    | none => simp [stage2Step]
    | some p =>
      cases st2 with
      | none => simp [stage2Step]
      | some recs => simp [stage2Step, ensureFieldsPerRecord_neg _ fpr h]
  · cases hres : refParseAll 0 sr with
    | error e => simp [stage2Step, h1, hres]
    | ok rs =>
      cases pl with
      | none => simp [stage2Step, h1, hres]
      | some p =>
        cases st2 with
        | none => simp [stage2Step, h1, hres]
        | some recs => simp [stage2Step, h1, hres, ensureFieldsPerRecord_neg _ fpr h]

lemma readAllGo_no_stash :
    ∀ (l : List RecordsOutput) (q : Nat) (recsAcc : List (List String)),
    (∀ (i : Nat) (o : RecordsOutput), l.get? i = some o →
      o.err = none ∧ o.sequence ≤ ((q + i : Nat) : Int)) →
    readAllGo ⟨recsAcc, [], (q : Int)⟩ l
      = Except.ok (recsAcc ++ (l.map (fun o => o.records)).flatten) := by
  intro l
  induction l with
  | nil =>
    intro q recsAcc h
    simp [readAllGo]
  | cons o rest ih =>
    intro q recsAcc h
    obtain ⟨herr, hseq⟩ := h 0 o rfl
    have hseq' : o.sequence ≤ (q : Int) := by
      have : ((q + 0 : Nat) : Int) = (q : Int) := by push_cast; ring
      rwa [this] at hseq
    simp only [readAllGo, herr]
    rw [if_neg (by omega : ¬ o.sequence > (q : Int))]
    have hdrain : drainLoop (recsAcc ++ o.records) [] ((q : Int) + 1)
        = (recsAcc ++ o.records, [], (q : Int) + 1) := by
      simp [drainLoop, drainLoopF, mapLookup]
    rw [hdrain]
    have hcast : (q : Int) + 1 = ((q + 1 : Nat) : Int) := by push_cast; ring
    rw [hcast]
    rw [ih (q + 1) (recsAcc ++ o.records) ?_]
    · simp [List.append_assoc]
    · intro i o' hio
      obtain ⟨h1, h2⟩ := h (i + 1) o' (by simpa using hio)
      refine ⟨h1, ?_⟩
      have : q + (i + 1) = q + 1 + i := by omega
      rwa [this] at h2

lemma runPool_serial_clean_fail (configFpr : Int) (hneg : configFpr < 0) :
    ∀ (cs : List ChunkWork) (cf : ChunkWork) (acc : List RecordsOutput),
    (∀ c ∈ cs, cleanChunk c) →
    List.foldl (poolStep configFpr) ⟨configFpr, ⟨cs ++ [cf], none⟩, ⟨[], none⟩, acc⟩
        (serialSched (cs.length + 1))
      = ⟨configFpr, ⟨[], none⟩, ⟨[], none⟩,
          acc ++ cs.map cleanOutput ++ [(stage2Step configFpr configFpr cf).2.1]⟩ := by
  intro cs
  induction cs with
  | nil =>
    intro cf acc _
    have hsched : serialSched (List.length ([] : List ChunkWork) + 1) = [false, false] := rfl
    rw [hsched]
    simp only [List.nil_append, List.map_nil]
    rw [List.foldl_cons, List.foldl_cons, List.foldl_nil]
    have h1 : poolStep configFpr ⟨configFpr, ⟨[cf], none⟩, ⟨[], none⟩, acc⟩ false
        = ⟨configFpr, ⟨[], some ((stage2Step configFpr configFpr cf).2.1,
            (stage2Step configFpr configFpr cf).2.2)⟩, ⟨[], none⟩, acc⟩ := by
      simp [poolStep, stage2Step_neg_fst configFpr configFpr cf hneg]
    rw [h1]
    simp [poolStep, ite_self]
  | cons c cs' ih =>
    intro cf acc hclean
    have hsched : serialSched ((c :: cs').length + 1)
        = false :: false :: serialSched (cs'.length + 1) := by
      unfold serialSched
      have h2 : 2 * ((c :: cs').length + 1) = (2 * (cs'.length + 1)) + 1 + 1 := by
        simp [List.length_cons]
        omega
      rw [h2]
      rfl
    rw [hsched]
    simp only [List.cons_append]
    rw [List.foldl_cons, List.foldl_cons]
    have hc : cleanChunk c := hclean c (by simp)
    have h1 : poolStep configFpr ⟨configFpr, ⟨c :: (cs' ++ [cf]), none⟩, ⟨[], none⟩, acc⟩ false
        = ⟨configFpr, ⟨cs' ++ [cf], some (cleanOutput c, false)⟩, ⟨[], none⟩, acc⟩ := by
      simp [poolStep, stage2Step_clean configFpr configFpr c hneg hc]
    rw [h1]
    have h2 : poolStep configFpr
        ⟨configFpr, ⟨cs' ++ [cf], some (cleanOutput c, false)⟩, ⟨[], none⟩, acc⟩ false
        = ⟨configFpr, ⟨cs' ++ [cf], none⟩, ⟨[], none⟩, acc ++ [cleanOutput c]⟩ := by
      simp [poolStep]
    rw [h2, ih cf (acc ++ [cleanOutput c]) (fun d hd => hclean d (by simp [hd]))]
    simp [List.append_assoc]


/-- The outputs a worker has computed but not yet sent. -/
def pendOuts (w : WorkerState) : List RecordsOutput :=
  match w.pending with
  | some ob => [ob.1]
  | none => []

/-- A worker whose pending output, if any, does not break its loop. -/
def workerClean (w : WorkerState) : Prop :=
  w.pending = none ∨ ∃ o, w.pending = some (o, false)

/-- All outputs of a pool state — already sent or still in flight — as a
multiset. -/
def poolMultiset (st : PoolState) : Multiset RecordsOutput :=
  (st.outs : Multiset RecordsOutput) + (pendOuts st.w0 : List RecordsOutput)
    + (pendOuts st.w1 : List RecordsOutput)
    + ((st.w0.queue ++ st.w1.queue).map cleanOutput : List RecordsOutput)

lemma poolStep_inv (configFpr : Int) (hneg : configFpr < 0) (st : PoolState) (who : Bool)
    (hcounter : st.counter = configFpr)
    (hclean : ∀ c ∈ st.w0.queue ++ st.w1.queue, cleanChunk c)
    (hw0 : workerClean st.w0) (hw1 : workerClean st.w1) :
    (poolStep configFpr st who).counter = configFpr ∧
    (∀ c ∈ (poolStep configFpr st who).w0.queue ++ (poolStep configFpr st who).w1.queue,
      cleanChunk c) ∧
    workerClean (poolStep configFpr st who).w0 ∧
    workerClean (poolStep configFpr st who).w1 ∧
    poolMultiset (poolStep configFpr st who) = poolMultiset st := by
  rcases st with ⟨counter, ⟨q0, p0⟩, ⟨q1, p1⟩, outs⟩
  have hcneg : counter < 0 := by
    rw [show counter = configFpr from hcounter]
    exact hneg
  cases who
  case false =>
    cases p0 with
    | some ob =>
      obtain ⟨o, hob⟩ : ∃ o, ob = (o, false) := by
        rcases hw0 with h | ⟨o, h⟩
        · exact absurd h (by simp)
        · exact ⟨o, by injection h⟩
      subst hob
      have hps : poolStep configFpr ⟨counter, ⟨q0, some (o, false)⟩, ⟨q1, p1⟩, outs⟩ false
          = ⟨counter, ⟨q0, none⟩, ⟨q1, p1⟩, outs ++ [o]⟩ := by
        simp [poolStep]
      rw [hps]
      refine ⟨hcounter, hclean, Or.inl rfl, hw1, ?_⟩
      simp only [poolMultiset, pendOuts, List.map_append]
      simp only [← Multiset.coe_add, ← Multiset.cons_coe, ← Multiset.singleton_add,
        Multiset.coe_nil]
      abel
    | none =>
      cases q0 with
      | nil =>
        have hps : poolStep configFpr ⟨counter, ⟨[], none⟩, ⟨q1, p1⟩, outs⟩ false
            = ⟨counter, ⟨[], none⟩, ⟨q1, p1⟩, outs⟩ := by
          simp [poolStep]
        rw [hps]
        exact ⟨hcounter, hclean, Or.inl rfl, hw1, rfl⟩
      | cons c rest =>
        have hc : cleanChunk c := hclean c (by simp)
        have hs := stage2Step_clean configFpr counter c hcneg hc
        have hps : poolStep configFpr ⟨counter, ⟨c :: rest, none⟩, ⟨q1, p1⟩, outs⟩ false
            = ⟨counter, ⟨rest, some (cleanOutput c, false)⟩, ⟨q1, p1⟩, outs⟩ := by
          simp [poolStep, hs]
        rw [hps]
        refine ⟨hcounter, ?_, Or.inr ⟨cleanOutput c, rfl⟩, hw1, ?_⟩
        · intro d hd
          refine hclean d ?_
          simp only [List.mem_append] at hd ⊢
          rcases hd with hd | hd
          · exact Or.inl (by simp [hd])
          · exact Or.inr hd
        · simp only [poolMultiset, pendOuts, List.map_append, List.map_cons]
          simp only [← Multiset.coe_add, ← Multiset.cons_coe, ← Multiset.singleton_add,
            Multiset.coe_nil]
          abel
  case true =>
    cases p1 with
    | some ob =>
      obtain ⟨o, hob⟩ : ∃ o, ob = (o, false) := by
        rcases hw1 with h | ⟨o, h⟩
        · exact absurd h (by simp)
        · exact ⟨o, by injection h⟩
      subst hob
      have hps : poolStep configFpr ⟨counter, ⟨q0, p0⟩, ⟨q1, some (o, false)⟩, outs⟩ true
          = ⟨counter, ⟨q0, p0⟩, ⟨q1, none⟩, outs ++ [o]⟩ := by
        simp [poolStep]
      rw [hps]
      refine ⟨hcounter, hclean, hw0, Or.inl rfl, ?_⟩
      simp only [poolMultiset, pendOuts, List.map_append]
      simp only [← Multiset.coe_add, ← Multiset.cons_coe, ← Multiset.singleton_add,
        Multiset.coe_nil]
      abel
    | none =>
      cases q1 with
      | nil =>
        have hps : poolStep configFpr ⟨counter, ⟨q0, p0⟩, ⟨[], none⟩, outs⟩ true
            = ⟨counter, ⟨q0, p0⟩, ⟨[], none⟩, outs⟩ := by
          simp [poolStep]
        rw [hps]
        exact ⟨hcounter, hclean, hw0, Or.inl rfl, rfl⟩
      | cons c rest =>
        have hc : cleanChunk c := hclean c (by simp)
        have hs := stage2Step_clean configFpr counter c hcneg hc
        have hps : poolStep configFpr ⟨counter, ⟨q0, p0⟩, ⟨c :: rest, none⟩, outs⟩ true
            = ⟨counter, ⟨q0, p0⟩, ⟨rest, some (cleanOutput c, false)⟩, outs⟩ := by
          simp [poolStep, hs]
        rw [hps]
        refine ⟨hcounter, ?_, hw0, Or.inr ⟨cleanOutput c, rfl⟩, ?_⟩
        · intro d hd
          refine hclean d ?_
          simp only [List.mem_append] at hd ⊢
          rcases hd with hd | hd
          · exact Or.inl hd
          · exact Or.inr (by simp [hd])
        · simp only [poolMultiset, pendOuts, List.map_append, List.map_cons]
          simp only [← Multiset.coe_add, ← Multiset.cons_coe, ← Multiset.singleton_add,
            Multiset.coe_nil]
          abel

lemma foldl_poolStep_inv (configFpr : Int) (hneg : configFpr < 0) :
    ∀ (sched : List Bool) (st : PoolState),
    st.counter = configFpr →
    (∀ c ∈ st.w0.queue ++ st.w1.queue, cleanChunk c) →
    workerClean st.w0 → workerClean st.w1 →
    (sched.foldl (poolStep configFpr) st).counter = configFpr ∧
    (∀ c ∈ (sched.foldl (poolStep configFpr) st).w0.queue
        ++ (sched.foldl (poolStep configFpr) st).w1.queue, cleanChunk c) ∧
    workerClean (sched.foldl (poolStep configFpr) st).w0 ∧
    workerClean (sched.foldl (poolStep configFpr) st).w1 ∧
    poolMultiset (sched.foldl (poolStep configFpr) st) = poolMultiset st := by
  intro sched
  induction sched with
  | nil => intro st h1 h2 h3 h4; exact ⟨h1, h2, h3, h4, rfl⟩
  | cons who rest ih =>
    intro st h1 h2 h3 h4
    obtain ⟨g1, g2, g3, g4, g5⟩ := poolStep_inv configFpr hneg st who h1 h2 h3 h4
    obtain ⟨f1, f2, f3, f4, f5⟩ := ih (poolStep configFpr st who) g1 g2 g3 g4
    exact ⟨f1, f2, f3, f4, by rw [List.foldl_cons] at *; rw [f5, g5]⟩

lemma runPool_outs_perm (configFpr : Int) (hneg : configFpr < 0)
    (w0 w1 : List ChunkWork) (sched : List Bool)
    (hclean : ∀ c ∈ w0 ++ w1, cleanChunk c)
    (hdone : poolDone (runPool configFpr w0 w1 sched)) :
    List.Perm (runPool configFpr w0 w1 sched).outs ((w0 ++ w1).map cleanOutput) := by
  have hms := (foldl_poolStep_inv configFpr hneg sched
    ⟨configFpr, ⟨w0, none⟩, ⟨w1, none⟩, []⟩ rfl (by simpa using hclean)
    (Or.inl rfl) (Or.inl rfl)).2.2.2.2
  have hrp : runPool configFpr w0 w1 sched
      = sched.foldl (poolStep configFpr) ⟨configFpr, ⟨w0, none⟩, ⟨w1, none⟩, []⟩ := rfl
  rw [← hrp] at hms
  obtain ⟨hd1, hd2, hd3, hd4⟩ := hdone
  have hp0 : pendOuts (runPool configFpr w0 w1 sched).w0 = [] := by
    simp [pendOuts, hd2]
  have hp1 : pendOuts (runPool configFpr w0 w1 sched).w1 = [] := by
    simp [pendOuts, hd4]
  rw [poolMultiset, poolMultiset, hp0, hp1, hd1, hd3] at hms
  simp only [List.append_nil, List.nil_append, List.map_nil, Multiset.coe_nil, add_zero,
    pendOuts] at hms
  exact Multiset.coe_eq_coe.mp (by simpa using hms)

lemma pipeline_canonical (configFpr : Int) (hneg : configFpr < 0)
    (w0 w1 : List ChunkWork) (n : Nat) (sched : List Bool)
    (hclean : ∀ c ∈ w0 ++ w1, cleanChunk c)
    (hseq : List.Perm ((w0 ++ w1).map (fun c => c.sequence))
      ((List.range n).map (fun k : Nat => (k : Int))))
    (hdone : poolDone (runPool configFpr w0 w1 sched)) :
    pipelineRecords configFpr w0 w1 sched
      = Except.ok (((List.range n).map
          (recsAt ((w0 ++ w1).map cleanOutput))).flatten) := by
  have hperm := runPool_outs_perm configFpr hneg w0 w1 sched hclean hdone
  have hcseq : ((w0 ++ w1).map cleanOutput).map (fun o => o.sequence)
      = (w0 ++ w1).map (fun c => c.sequence) := by
    rw [List.map_map]
    simp [Function.comp_def, cleanOutput_sequence]
  have hinj : Function.Injective (fun k : Nat => (k : Int)) := fun a b h => by
    have hab : (a : Int) = (b : Int) := h
    exact_mod_cast hab
  have hnodupC : (((w0 ++ w1).map cleanOutput).map (fun o => o.sequence)).Nodup := by
    rw [hcseq]
    exact hseq.nodup_iff.mpr ((List.nodup_range n).map hinj)
  unfold pipelineRecords
  refine readAllReassemble_perm _ n (recsAt ((w0 ++ w1).map cleanOutput)) ?_ ?_ ?_ ?_
  · intro o ho
    obtain ⟨c, hcm, rfl⟩ := List.mem_map.mp (hperm.mem_iff.mp ho)
    exact cleanOutput_err c
  · intro o ho
    have hoC : o ∈ (w0 ++ w1).map cleanOutput := hperm.mem_iff.mp ho
    obtain ⟨c, hcm, rfl⟩ := List.mem_map.mp hoC
    have hsm : (cleanOutput c).sequence ∈ (List.range n).map (fun k : Nat => (k : Int)) := by
      refine hseq.mem_iff.mp ?_
      rw [cleanOutput_sequence]
      exact List.mem_map_of_mem _ hcm
    obtain ⟨k, hk, hke⟩ := List.mem_map.mp hsm
    refine ⟨k, List.mem_range.mp hk, hke.symm, ?_⟩
    exact (recsAt_eq_of_mem ((w0 ++ w1).map cleanOutput) hnodupC (cleanOutput c) hoC k
      hke.symm).symm
  · exact ((hperm.map (fun o => o.sequence)).nodup_iff).mpr hnodupC
  · intro k hk
    refine ((hperm.map (fun o => o.sequence)).mem_iff).mpr ?_
    rw [hcseq]
    exact hseq.mem_iff.mpr (List.mem_map_of_mem _ (List.mem_range.mpr hk))



/-! Chunk boundary handling (claim C6).  Stage 1 (simdcsv.go lines 260-301)
computes per chunk a header and a trailer by scanning the first word of each
mask triple, joins the previous chunk's trailer bytes with the current
chunk's header bytes into splitRow and carries the trailer bytes into the
next iteration; Stage 2 (simdcsv.go lines 331-348) clears the header bits of
triple header>>6 and the trailer bits of triple len-((trailer>>6)+1) before
handing buf[(header>>6)*64 : len(buf)-trailer] and masks[(header>>6)*3:] to
the parsing kernel (line 351). -/

/-- One triple of 64-bit mask words of the Stage-1 preprocessing output for
one 64-byte lane: m0 = masksStream[3*k+0] (the newline-delimiter mask, the
word scanned by the header and trailer loops), m1 = masksStream[3*k+1],
m2 = masksStream[3*k+2].  The words are produced by
stage1PreprocessBufferEx, which is not part of this repository's sources, so
they enter the model as data. -/
structure MaskTriple where
  m0 : Nat
  m1 : Nat
  m2 : Nat
deriving DecidableEq, Repr

/-- bits.TrailingZeros64: index of the least-significant set bit among the
low 64 bits, 64 when they are all clear. -/
def tz64 (x : Nat) : Nat :=
  ((List.range 64).find? (fun i => x.testBit i)).getD 64

/-- bits.LeadingZeros64: number of zero bits above the most-significant set
bit among the low 64 bits, 64 when they are all clear. -/
def lz64 (x : Nat) : Nat :=
  ((List.range 64).find? (fun i => x.testBit (63 - i))).getD 64

/-- The header loop of stage1Streaming (simdcsv.go lines 263-272): 64 for
every leading all-zero delimiter word, stopping at the first word with a set
bit and adding its trailing-zero count. -/
def headerScan : List MaskTriple → Nat
  | [] => 0
  | t :: rest => if tz64 t.m0 < 64 then tz64 t.m0 else 64 + headerScan rest

/-- The header of a chunk (simdcsv.go lines 260-278): 0 for the first chunk;
otherwise the scan result, replaced by the chunk length when no delimiter
bit was found at all (header == len(masksStream)/3*64, lines 273-277). -/
def computeHeader (sequence : Nat) (masks : List MaskTriple) (bufLen : Nat) : Nat :=
  if 0 < sequence then
    if headerScan masks = masks.length * 64 then bufLen else headerScan masks
  else 0

/-- The trailer loop of stage1Streaming (simdcsv.go lines 281-287): scan the
delimiter words backwards, adding 64 per all-zero word and stopping at the
first word with a set bit, adding its leading-zero count. -/
def trailerScan : List MaskTriple → Nat
  | [] => 0
  | t :: rest => if lz64 t.m0 < 64 then lz64 t.m0 else 64 + trailerScan rest

/-- The trailer of a chunk (simdcsv.go lines 280-288), scanned only when the
chunk is not the last one and the header did not swallow the whole chunk.
The backwards loop starts at index 3 and reads masksStream[len-index], so it
visits triples n-1 down to 1 and never triple 0 — i.e. it scans the reverse
of the tail of the triple list. -/
def computeTrailer (last : Bool) (header bufLen : Nat) (masks : List MaskTriple) : Nat :=
  if last = false ∧ header < bufLen then trailerScan masks.tail.reverse else 0

/-- Per-chunk input to Stage 1: the chunkIn fields (buf, last) together with
the mask triples the preprocessing step produced for the chunk. -/
structure ChunkS1 where
  buf : List Nat
  last : Bool
  masks : List MaskTriple
deriving DecidableEq, Repr

/-- Mirror of chunkInfo (simdcsv.go lines 220-228): what stage1Streaming
sends to the Stage-2 workers; postProc is omitted (it plays no part in the
boundary logic). -/
structure ChunkInfo where
  sequence : Nat
  chunk : Option (List Nat)
  masks : List MaskTriple
  header : Nat
  trailer : Nat
  splitRow : List Nat
deriving DecidableEq, Repr

/-- The loop of stage1Streaming (simdcsv.go lines 253-302) with the
preprocessing output as input data: compute header and trailer, extend the
carried splitRow with the chunk's header bytes (line 290), emit the
chunkInfo — with a nil chunk when the header swallows the whole buffer
(lines 292-296) — and carry the trailer bytes chunk.buf[len-trailer:]
(lines 298-299) into the next iteration under the next sequence number. -/
def stage1Go (sequence : Nat) (splitRow : List Nat) : List ChunkS1 → List ChunkInfo
  | [] => []
  | ch :: rest =>
    (if computeHeader sequence ch.masks ch.buf.length < ch.buf.length then
        ChunkInfo.mk sequence (some ch.buf) ch.masks
          (computeHeader sequence ch.masks ch.buf.length)
          (computeTrailer ch.last (computeHeader sequence ch.masks ch.buf.length)
            ch.buf.length ch.masks)
          (splitRow ++ ch.buf.take (computeHeader sequence ch.masks ch.buf.length))
      else
        ChunkInfo.mk sequence none [] 0 0
          (splitRow ++ ch.buf.take (computeHeader sequence ch.masks ch.buf.length))) ::
    stage1Go (sequence + 1)
      (ch.buf.drop (ch.buf.length -
        computeTrailer ch.last (computeHeader sequence ch.masks ch.buf.length)
          ch.buf.length ch.masks)) rest

/-- stage1Streaming's full run: sequence starts at 0 and the carried
splitRow starts empty (lines 248-251). -/
def stage1Run (inputs : List ChunkS1) : List ChunkInfo := stage1Go 0 [] inputs

/-- The k-th Stage-1 input chunk (a default empty last chunk out of range). -/
def chunkAt (inputs : List ChunkS1) (k : Nat) : ChunkS1 :=
  (inputs.get? k).getD ⟨[], true, []⟩

/-- The header Stage 1 computes for the k-th chunk. -/
def headerAt (inputs : List ChunkS1) (k : Nat) : Nat :=
  computeHeader k (chunkAt inputs k).masks (chunkAt inputs k).buf.length

/-- The trailer Stage 1 computes for the k-th chunk. -/
def trailerAt (inputs : List ChunkS1) (k : Nat) : Nat :=
  computeTrailer (chunkAt inputs k).last (headerAt inputs k)
    (chunkAt inputs k).buf.length (chunkAt inputs k).masks

/-- The splitRow field of the k-th emitted chunkInfo. -/
def splitRowAt (inputs : List ChunkS1) (k : Nat) : List Nat :=
  (((stage1Run inputs).get? k).map ChunkInfo.splitRow).getD []

lemma stage1Go_head_splitRow (sequence : Nat) (splitRow : List Nat) (ch : ChunkS1)
    (rest : List ChunkS1) :
    ((stage1Go sequence splitRow (ch :: rest)).get? 0).map ChunkInfo.splitRow =
      some (splitRow ++ ch.buf.take (computeHeader sequence ch.masks ch.buf.length)) := by
  unfold stage1Go
  by_cases h : computeHeader sequence ch.masks ch.buf.length < ch.buf.length
  · rw [if_pos h]; rfl
  · rw [if_neg h]; rfl

lemma stage1Go_tail (sequence : Nat) (splitRow : List Nat) (ch : ChunkS1)
    (rest : List ChunkS1) (k : Nat) :
    (stage1Go sequence splitRow (ch :: rest)).get? (k + 1) =
      (stage1Go (sequence + 1)
        (ch.buf.drop (ch.buf.length -
          computeTrailer ch.last (computeHeader sequence ch.masks ch.buf.length)
            ch.buf.length ch.masks)) rest).get? k := by
  rfl

lemma stage1Go_splitRow_step (k : Nat) :
    ∀ (inputs : List ChunkS1) (sequence : Nat) (splitRow : List Nat),
    k + 1 < inputs.length →
    ((stage1Go sequence splitRow inputs).get? (k + 1)).map ChunkInfo.splitRow =
      some ((chunkAt inputs k).buf.drop ((chunkAt inputs k).buf.length -
          computeTrailer (chunkAt inputs k).last
            (computeHeader (sequence + k) (chunkAt inputs k).masks
              (chunkAt inputs k).buf.length)
            (chunkAt inputs k).buf.length (chunkAt inputs k).masks) ++
        (chunkAt inputs (k + 1)).buf.take
          (computeHeader (sequence + (k + 1)) (chunkAt inputs (k + 1)).masks
            (chunkAt inputs (k + 1)).buf.length)) := by
  induction k with
  | zero =>
    intro inputs sequence splitRow hlen
    cases inputs with
    | nil => simp at hlen
    | cons ch rest =>
      cases rest with
      | nil => simp at hlen
      | cons ch2 rest2 =>
        rw [stage1Go_tail, stage1Go_head_splitRow]
        simp [chunkAt]
  | succ k ih =>
    intro inputs sequence splitRow hlen
    cases inputs with
    | nil => simp at hlen
    | cons ch rest =>
      rw [stage1Go_tail]
      have hlen2 : k + 1 < rest.length := by
        simp only [List.length_cons] at hlen
        omega
      rw [ih rest (sequence + 1) _ hlen2]
      have e1 : sequence + 1 + k = sequence + (k + 1) := by omega
      have e2 : sequence + 1 + (k + 1) = sequence + (k + 1 + 1) := by omega
      rw [e1, e2]
      rfl

lemma splitRowAt_zero (inputs : List ChunkS1) (h : 0 < inputs.length) :
    splitRowAt inputs 0 = [] := by
  cases inputs with
  | nil => simp at h
  | cons ch rest =>
    unfold splitRowAt stage1Run
    rw [stage1Go_head_splitRow]
    simp [computeHeader]

lemma splitRowAt_succ (inputs : List ChunkS1) (k : Nat) (h : k + 1 < inputs.length) :
    splitRowAt inputs (k + 1) =
      (chunkAt inputs k).buf.drop ((chunkAt inputs k).buf.length - trailerAt inputs k) ++
      (chunkAt inputs (k + 1)).buf.take (headerAt inputs (k + 1)) := by
  unfold splitRowAt stage1Run trailerAt headerAt
  rw [stage1Go_splitRow_step k inputs 0 [] h]
  simp

/-- Clear the low shift bits of a 64-bit word, the effect of
m &= ^uint64((1 << shift) - 1) (simdcsv.go lines 336-338). -/
def clip64low (m shift : Nat) : Nat := (m >>> shift) <<< shift

/-- Clear the high s bits of a 64-bit word, the effect of m <<= s followed
by m >>= s on uint64 — the left shift wraps modulo 2^64 (simdcsv.go lines
343-348). -/
def clip64high (m s : Nat) : Nat := ((m <<< s) % 2 ^ 64) >>> s

/-- Lines 336-338 applied to one triple. -/
def clipTripleLow (t : MaskTriple) (shift : Nat) : MaskTriple :=
  ⟨clip64low t.m0 shift, clip64low t.m1 shift, clip64low t.m2 shift⟩

/-- Lines 343-348 applied to one triple. -/
def clipTripleHigh (t : MaskTriple) (s : Nat) : MaskTriple :=
  ⟨clip64high t.m0 s, clip64high t.m1 s, clip64high t.m2 s⟩

/-- The mask clipping of stage2Streaming (simdcsv.go lines 331-348): clear
the first header&63 bits of all three words of triple header>>6, then the
top trailer&63 bits of all three words of triple len-((trailer>>6)+1);
indices are in triples, the Go code indexing the flat word array with
stride 3. -/
def clipMasks (masks : List MaskTriple) (header trailer : Nat) : List MaskTriple :=
  let m1 := masks.set (header / 64)
    (clipTripleLow ((masks.get? (header / 64)).getD ⟨0, 0, 0⟩) (header % 64))
  m1.set (masks.length - (trailer / 64 + 1))
    (clipTripleHigh ((m1.get? (masks.length - (trailer / 64 + 1))).getD ⟨0, 0, 0⟩)
      (trailer % 64))

/-- Any structural bit of a triple. -/
def tripleBit (t : MaskTriple) (b : Nat) : Bool :=
  t.m0.testBit b || t.m1.testBit b || t.m2.testBit b

/-- Whether the Stage-2 kernel is handed the structural-mask bit of absolute
byte position p of the chunk: the kernel receives the byte slice
buf[(header/64)*64 : len-trailer] together with the clipped masks from
triple header/64 on (simdcsv.go line 351), so position p's bit reaches it
iff p's word index lies among the words covering that slice and the bit
survives the clipping. -/
def stage2Sees (masks : List MaskTriple) (header trailer len p : Nat) : Bool :=
  decide (header / 64 ≤ p / 64 ∧
      p / 64 < header / 64 + (len - trailer - header / 64 * 64 + 63) / 64) &&
    match (clipMasks masks header trailer).get? (p / 64) with
    | some t => tripleBit t (p % 64)
    | none => false

lemma testBit_clip64low (m shift b : Nat) :
    (clip64low m shift).testBit b = (decide (shift ≤ b) && m.testBit b) := by
  unfold clip64low
  rw [Nat.testBit_shiftLeft]
  by_cases h : shift ≤ b
  · rw [Nat.testBit_shiftRight]
    have e : shift + (b - shift) = b := by omega
    rw [e]
  · simp [ge_iff_le, h]

lemma testBit_clip64high (m s b : Nat) :
    (clip64high m s).testBit b = (decide (b + s < 64) && m.testBit b) := by
  unfold clip64high
  rw [Nat.testBit_shiftRight, Nat.testBit_mod_two_pow, Nat.testBit_shiftLeft]
  by_cases h : b + s < 64
  · have h1 : s + b < 64 := by omega
    have h2 : s ≤ s + b := by omega
    have h3 : s + b - s = b := by omega
    simp [ge_iff_le, h, h1, h2, h3]
  · have h1 : ¬ (s + b < 64) := by omega
    simp [h, h1]

lemma tripleBit_clipTripleLow (t : MaskTriple) (shift b : Nat) :
    tripleBit (clipTripleLow t shift) b = (decide (shift ≤ b) && tripleBit t b) := by
  by_cases h : shift ≤ b <;>
    simp [tripleBit, clipTripleLow, testBit_clip64low, h]

lemma tripleBit_clipTripleHigh (t : MaskTriple) (s b : Nat) :
    tripleBit (clipTripleHigh t s) b = (decide (b + s < 64) && tripleBit t b) := by
  by_cases h : b + s < 64 <;>
    simp [tripleBit, clipTripleHigh, testBit_clip64high, h]

lemma clipMasks_length (masks : List MaskTriple) (header trailer : Nat) :
    (clipMasks masks header trailer).length = masks.length := by
  simp [clipMasks]

lemma clipMasks_get (masks : List MaskTriple) (header trailer w : Nat)
    (hwn : w < masks.length) :
    ∃ t : MaskTriple, (clipMasks masks header trailer).get? w = some t ∧
      (header / 64 = w → ∀ b, b < header % 64 → tripleBit t b = false) ∧
      (masks.length - (trailer / 64 + 1) = w → ∀ b, 64 ≤ b + trailer % 64 →
        tripleBit t b = false) := by
  unfold clipMasks
  simp only
  set skip := header / 64 with hskip
  set shift := header % 64 with hshift
  set idx := masks.length - (trailer / 64 + 1) with hidx
  set s := trailer % 64 with hs
  set t1 := clipTripleLow ((masks.get? skip).getD ⟨0, 0, 0⟩) shift with ht1
  set m1 := masks.set skip t1 with hm1
  set t2 := clipTripleHigh ((m1.get? idx).getD ⟨0, 0, 0⟩) s with ht2
  have hm1len : m1.length = masks.length := by
    rw [hm1]; exact List.length_set masks skip t1
  by_cases hwidx : w = idx
  · have hget : (m1.set idx t2).get? w = some t2 := by
      rw [hwidx, List.get?_eq_getElem?]
      exact List.getElem?_set_self (by omega)
    refine ⟨t2, hget, ?_, ?_⟩
    · intro hskipw b hb
      rw [ht2, tripleBit_clipTripleHigh]
      by_cases hbs : b + s < 64
      · have hidxskip : idx = skip := by omega
        have hx : m1.get? idx = some t1 := by
          rw [hidxskip, hm1, List.get?_eq_getElem?]
          exact List.getElem?_set_self (by omega)
        rw [hx]
        simp only [Option.getD_some]
        rw [ht1, tripleBit_clipTripleLow]
        have : ¬ (shift ≤ b) := by omega
        simp [this]
      · simp [hbs]
    · intro _ b hb
      rw [ht2, tripleBit_clipTripleHigh]
      have : ¬ (b + s < 64) := by omega
      simp [this]
  · have hget1 : (m1.set idx t2).get? w = m1.get? w := by
      rw [List.get?_eq_getElem?, List.getElem?_set_ne (by omega), ← List.get?_eq_getElem?]
    by_cases hwskip : w = skip
    · have hget2 : m1.get? w = some t1 := by
        rw [hwskip, hm1, List.get?_eq_getElem?]
        exact List.getElem?_set_self (by omega)
      refine ⟨t1, by rw [hget1, hget2], ?_, ?_⟩
      · intro _ b hb
        rw [ht1, tripleBit_clipTripleLow]
        have : ¬ (shift ≤ b) := by omega
        simp [this]
      · intro h
        exact absurd h.symm hwidx
    · have hget2 : m1.get? w = masks.get? w := by
        rw [hm1, List.get?_eq_getElem?, List.getElem?_set_ne (by omega),
          ← List.get?_eq_getElem?]
      obtain ⟨t0, ht0⟩ : ∃ t0, masks.get? w = some t0 := by
        cases hh : masks.get? w with
        | none => exact absurd (List.get?_eq_none.mp hh) (by omega)
        | some t0 => exact ⟨t0, rfl⟩
      refine ⟨t0, by rw [hget1, hget2, ht0], ?_, ?_⟩
      · intro h
        exact absurd h.symm hwskip
      · intro h
        exact absurd h.symm hwidx

/-- Mask bits of the header prefix and of the trailer suffix never reach the
Stage-2 kernel: the header bits of the partially visible first word are
cleared, lower words are skipped entirely; the trailer bits of the partially
visible last word are cleared, higher words lie beyond the words the kernel
reads.  The coverage hypothesis reflects stage1Streaming: a trailer is only
ever computed for a non-last chunk, whose buffer is a whole number of
64-byte lanes. -/
lemma stage2Sees_false_outside (masks : List MaskTriple) (header trailer len p : Nat)
    (hcov : len = 64 * masks.length ∨ trailer = 0)
    (hht : header + trailer ≤ len)
    (hp : p < header ∨ (len - trailer ≤ p ∧ p < len)) :
    stage2Sees masks header trailer len p = false := by
  unfold stage2Sees
  by_cases hrange : header / 64 ≤ p / 64 ∧
      p / 64 < header / 64 + (len - trailer - header / 64 * 64 + 63) / 64
  · suffices hm : (match (clipMasks masks header trailer).get? (p / 64) with
        | some t => tripleBit t (p % 64)
        | none => false) = false by
      rw [hm, Bool.and_false]
    by_cases hwn : p / 64 < masks.length
    · obtain ⟨t, hget, hlo, hhi⟩ := clipMasks_get masks header trailer (p / 64) hwn
      rw [hget]
      rcases hp with hp | ⟨hp1, hp2⟩
      · -- the header region: p sits in word header/64, below bit header%64
        exact hlo (by omega) (p % 64) (by omega)
      · -- the trailer region
        rcases hcov with hcov | hcov
        · exact hhi (by omega) (p % 64) (by omega)
        · omega
    · have hnone : (clipMasks masks header trailer).get? (p / 64) = none := by
        apply List.get?_eq_none.mpr
        rw [clipMasks_length]
        omega
      rw [hnone]
  · simp only [decide_eq_false hrange, Bool.false_and]

/-- A stage2Streaming iteration on a chunk whose splitRow parses to rows rs
and whose payload Stage 2 parsed into recs, with the field-count check
passing: the emitted output carries the splitRow's records rs in front of
the chunk's own records recs (simdcsv.go lines 319-327 and 399). -/
lemma stage2Step_splitRecs_first (configFpr fpr fpr' seq : Int) (sr p : List Char)
    (recs rs : List (List String)) (hsr : sr ≠ [])
    (hrs : refParseAll 0 sr = Except.ok rs)
    (hens : ensureFieldsPerRecord (rs ++ recs) fpr = (fpr', Except.ok (rs ++ recs))) :
    stage2Step configFpr fpr ⟨seq, sr, some p, some recs⟩ =
      (fpr', ⟨seq, rs ++ recs, none⟩, false) := by
  simp [stage2Step, hsr, hrs, hens]

end Simdcsv

namespace Simdcsv

/-- C8: for every nonempty prefix handed to the chunk ambiguity scanner, the
prefix is classified unambiguous (determineAmbiguity = false) iff it contains
at least one Qo pattern or at least one oQ pattern, and ambiguous
(determineAmbiguity = true) iff it contains neither; accordingly, a
quote-containing chunk no longer than PREFIX_SIZE gets chunk status Ambigous
exactly when it contains neither pattern. -/
theorem determineAmbiguity_spec (p : List Nat) (_hp : p ≠ []) :
    (determineAmbiguity p = false ↔ (hasQoSpec p ∨ hasOqSpec p)) ∧
    (determineAmbiguity p = true ↔ (¬hasQoSpec p ∧ ¬hasOqSpec p)) ∧
    (p.length ≤ PREFIX_SIZE → p.contains 34 = true →
      (deriveChunkStatus p = ChunkStatus.Ambigous ↔ (¬hasQoSpec p ∧ ¬hasOqSpec p))) := by
  have hq := detectQoPattern_iff p
  have ho := detectOqPattern_iff p
  have key1 : determineAmbiguity p = false ↔ (hasQoSpec p ∨ hasOqSpec p) := by
    rw [← hq, ← ho]
    unfold determineAmbiguity
    cases detectQoPattern p <;> cases detectOqPattern p <;> simp
  have key2 : determineAmbiguity p = true ↔ (¬hasQoSpec p ∧ ¬hasOqSpec p) := by
    rw [← hq, ← ho]
    unfold determineAmbiguity
    cases detectQoPattern p <;> cases detectOqPattern p <;> simp
  refine ⟨key1, key2, ?_⟩
  intro hlen hmem
  have hpfx : p.take (min PREFIX_SIZE p.length) = p := by
    rw [min_eq_right hlen, List.take_length]
  have hunf : deriveChunkStatus p
      = if (p.take (min PREFIX_SIZE p.length)).contains 34 then
          (if determineAmbiguity (p.take (min PREFIX_SIZE p.length)) then
            ChunkStatus.Ambigous else ChunkStatus.Unambigous)
        else ChunkStatus.Unambigous := rfl
  rw [hunf, hpfx, hmem]
  simp only [if_true]
  by_cases hda : determineAmbiguity p = true
  · rw [if_pos hda]
    exact ⟨fun _ => key2.mp hda, fun _ => rfl⟩
  · rw [if_neg hda]
    constructor
    · intro hcon
      exact absurd hcon (by simp)
    · intro hh
      exact absurd (key2.mpr hh) hda

/-- C8 witness: instantiation at the two-byte prefix quote-then-letter. -/
theorem determineAmbiguity_spec_witness :
    (determineAmbiguity [34, 97] = false ↔ (hasQoSpec [34, 97] ∨ hasOqSpec [34, 97])) ∧
    (determineAmbiguity [34, 97] = true ↔ (¬hasQoSpec [34, 97] ∧ ¬hasOqSpec [34, 97])) ∧
    (([34, 97] : List Nat).length ≤ PREFIX_SIZE → ([34, 97] : List Nat).contains 34 = true →
      (deriveChunkStatus [34, 97] = ChunkStatus.Ambigous ↔
        (¬hasQoSpec [34, 97] ∧ ¬hasOqSpec [34, 97]))) :=
  determineAmbiguity_spec [34, 97] (by decide)

/-- C2: when the emitted outputs carry sequences forming a permutation of
0..n-1 and none carries an error, ReadAll reassembles them into the
concatenation of the per-sequence record lists in ascending sequence order —
so the records of sequence s appear strictly after all records of sequences
below s and strictly before all records of sequences above s, with higher
sequences held in the reorder map until the gap closes; and every successful
nextblock call strictly increases the expected-sequence cursor, so the
streaming Read path also yields blocks in strictly ascending sequence
order. -/
theorem readAll_records_in_sequence_order (outs : List RecordsOutput) (n : Nat)
    (herr : ∀ o ∈ outs, o.err = none)
    (hperm : List.Perm (outs.map (fun o => o.sequence))
      ((List.range n).map (fun k : Nat => (k : Int)))) :
    readAllReassemble outs = Except.ok (((List.range n).map (recsAt outs)).flatten) ∧
    (∀ st st' : ReadState, nextblockModel st = Except.ok st' →
      st.sequence < st'.sequence) :=
  ⟨readAllReassemble_of_perm outs n herr hperm,
   fun st st' h => nextblock_ascending st st' h⟩

/-- C2 witness: two outputs arriving out of order (sequence 1 first) are
reassembled into sequence order. -/
theorem readAll_records_in_sequence_order_witness :
    readAllReassemble [⟨1, [["b"]], none⟩, ⟨0, [["a"]], none⟩]
      = Except.ok (((List.range 2).map
          (recsAt [⟨1, [["b"]], none⟩, ⟨0, [["a"]], none⟩])).flatten) ∧
    readAllReassemble [⟨1, [["b"]], none⟩, ⟨0, [["a"]], none⟩]
      = Except.ok [["a"], ["b"]] := by
  refine ⟨(readAll_records_in_sequence_order
    [⟨1, [["b"]], none⟩, ⟨0, [["a"]], none⟩] 2 ?_ ?_).1, ?_⟩
  · intro o ho
    fin_cases ho <;> rfl
  · decide
  · rfl

/-- C4 counterexample: with FieldsPerRecord = 0, the record lists ReadAll
returns depend on the goroutine interleaving, not only on input bytes and
configuration.  Two chunks whose first rows have three and two fields are
processed by the two workers under two legal schedules; in the first the
counter is pinned to 3, worker 2's chunk fails the check and its fallback
output (sequence -1) is sent after worker 1's output; in the second the
fallback output is sent first, and ReadAll appends records carried by
sequence -1 at its current cursor, so the two runs return different record
lists.  Both schedules drive the pool to completion. -/
theorem readAll_not_deterministic_fpr0 :
    pipelineRecords 0 [⟨0, [], some "a,b,c\n".toList, some [["a", "b", "c"]]⟩]
        [⟨1, [], some "1,2\n".toList, some [["1", "2"]]⟩] [false, false, true, true]
      = Except.ok [["a", "b", "c"], ["1", "2"]] ∧
    pipelineRecords 0 [⟨0, [], some "a,b,c\n".toList, some [["a", "b", "c"]]⟩]
        [⟨1, [], some "1,2\n".toList, some [["1", "2"]]⟩] [false, true, true, false]
      = Except.ok [["1", "2"], ["a", "b", "c"]] ∧
    ([["a", "b", "c"], ["1", "2"]] : List (List String)) ≠ [["1", "2"], ["a", "b", "c"]] ∧
    poolDone (runPool 0 [⟨0, [], some "a,b,c\n".toList, some [["a", "b", "c"]]⟩]
        [⟨1, [], some "1,2\n".toList, some [["1", "2"]]⟩] [false, false, true, true]) ∧
    poolDone (runPool 0 [⟨0, [], some "a,b,c\n".toList, some [["a", "b", "c"]]⟩]
        [⟨1, [], some "1,2\n".toList, some [["1", "2"]]⟩] [false, true, true, false]) :=
  ⟨rfl, rfl, by decide, ⟨rfl, rfl, rfl, rfl⟩, ⟨rfl, rfl, rfl, rfl⟩⟩

/-- C1 counterexample: when Stage 2 reports a parsing error on a chunk, the
fallback output carries sequence -1, and ReadAll appends sequence--1 records
at its current reassembly cursor; under a legal schedule in which the failing
chunk's fallback output is sent before a lower-sequence chunk's output, the
reference parser's records appear before the records of chunk 0 — not at the
failing chunk's position — whereas the same schedule with Stage 2 succeeding
yields the records in chunk order.  The recovery is therefore not transparent
to the consumer. -/
theorem parsingError_fallback_not_positional :
    pipelineRecords (-1) [⟨0, [], some "a,b,c\n".toList, some [["a", "b", "c"]]⟩]
        [⟨1, [], some "1,2\n".toList, none⟩] [false, true, true, false]
      = Except.ok [["1", "2"], ["a", "b", "c"]] ∧
    pipelineRecords (-1) [⟨0, [], some "a,b,c\n".toList, some [["a", "b", "c"]]⟩]
        [⟨1, [], some "1,2\n".toList, some [["1", "2"]]⟩] [false, true, true, false]
      = Except.ok [["a", "b", "c"], ["1", "2"]] ∧
    ([["1", "2"], ["a", "b", "c"]] : List (List String)) ≠ [["a", "b", "c"], ["1", "2"]] :=
  ⟨rfl, rfl, by decide⟩

/-- C5 counterexample: the terminal field-count error does not carry the line
number counted from the start of the file.  The nine-cell stream with rows
(a,b,c), (d,e,f), (g,h) and fields_per_record = 3 has its first offending row
on file line 3; parsed as a single chunk the error names line 3, but when the
stream is split so that rows 2 and 3 form the second chunk, the surfaced
error (produced by the reference parser rerunning that chunk's payload) names
line 2 — numbering restarts at each chunk. -/
theorem fieldCountMismatch_not_file_line :
    pipelineRecords 3 [⟨0, [], some "a,b,c\n".toList, some [["a", "b", "c"]]⟩,
        ⟨1, [], some "d,e,f\ng,h\n".toList, some [["d", "e", "f"], ["g", "h"]]⟩] []
        (serialSched 2)
      = Except.error "record on line 2: wrong number of fields" ∧
    pipelineRecords 3 [⟨0, [], some "a,b,c\nd,e,f\ng,h\n".toList,
        some [["a", "b", "c"], ["d", "e", "f"], ["g", "h"]]⟩] [] (serialSched 1)
      = Except.error "record on line 3: wrong number of fields" := ⟨rfl, rfl⟩

/-- C5 amended: with fields_per_record pinned positive, a chunk containing a
row with a different number of fields produces a terminal error naming the
one-based line number of the first offending row within the offending chunk's
payload (file-global only when the offending chunk starts the file): if the
first mismatching row of the payload has zero-based index i, the pipeline
returns the error record on line i + 1. -/
theorem fieldCountMismatch_names_chunk_line (fpr : Int) (hpos : 0 < fpr)
    (p : List Char) (i : Nat)
    (hidx : (refRows p).findIdx? (fun r => !((r.length : Int) == fpr)) = some i) :
    pipelineRecords fpr [⟨0, [], some p, some (refRows p)⟩] [] (serialSched 1)
      = Except.error ("record on line " ++ toString (i + 1) ++ ": wrong number of fields") := by
  have h0 : ¬ (fpr = 0) := by omega
  have hneg : ¬ (fpr < 0) := by omega
  have hensure : ensureFieldsPerRecord (refRows p) fpr
      = (fpr, Except.error ("record on line " ++ toString (i + 1) ++ ": wrong number of fields")) := by
    unfold ensureFieldsPerRecord
    simp only [h0, if_false, if_pos hpos, hidx]
  have hfall : fallback fpr p = ⟨-1, [],
      some ("record on line " ++ toString (i + 1) ++ ": wrong number of fields")⟩ := by
    unfold fallback refParseAll refCheck
    simp only [if_neg hneg, h0, if_false, hidx]
  have hstep : stage2Step fpr fpr ⟨0, [], some p, some (refRows p)⟩
      = (fpr, ⟨-1, [],
          some ("record on line " ++ toString (i + 1) ++ ": wrong number of fields")⟩, true) := by
    unfold stage2Step
    simp [hensure, hfall]
  have hsched : serialSched 1 = [false, false] := rfl
  unfold pipelineRecords runPool
  rw [hsched]
  simp [List.foldl, poolStep, hstep, readAllReassemble, readAllGo]

/-- C5 amended witness: the specification's concrete example — the stream
a,b,c then 1,2 with fields_per_record = 3 as a single chunk — produces the
terminal error naming line 2. -/
theorem fieldCountMismatch_names_chunk_line_witness :
    pipelineRecords 3 [⟨0, [], some "a,b,c\n1,2\n".toList,
        some (refRows "a,b,c\n1,2\n".toList)⟩] [] (serialSched 1)
      = Except.error ("record on line " ++ toString (1 + 1) ++ ": wrong number of fields") ∧
    ("record on line " ++ toString (1 + 1) ++ ": wrong number of fields")
      = "record on line 2: wrong number of fields" :=
  ⟨fieldCountMismatch_names_chunk_line 3 (by decide) ("a,b,c\n1,2\n".toList) 1 (by decide),
   by decide⟩

/-- C1 amended: the recovery from a Stage-2 parsing error is the fallback
output carrying sequence -1, whose records ReadAll appends at its current
reassembly cursor; the replacement therefore lands at the failing chunk's
position exactly when every lower-sequence output has already been consumed,
as in serial processing with the failing chunk last: there the consumer sees
the clean chunks' records in order followed by the reference parser's records
for the failing chunk's payload. -/
theorem fallback_lands_at_cursor_when_serial (configFpr : Int) (hneg : configFpr < 0)
    (cs : List ChunkWork) (cf : ChunkWork) (p : List Char) (recsF : List (List String))
    (hclean : ∀ c ∈ cs, cleanChunk c)
    (hseqs : cs.map (fun c => c.sequence)
      = (List.range cs.length).map (fun k : Nat => (k : Int)))
    (hsr : cf.splitRow = []) (hpl : cf.payload = some p) (hst : cf.stage2 = none)
    (href : refParseAll configFpr p = Except.ok recsF) :
    pipelineRecords configFpr (cs ++ [cf]) [] (serialSched (cs.length + 1))
      = Except.ok ((cs.map (fun c => (cleanOutput c).records)).flatten ++ recsF) := by
  have hstep : (stage2Step configFpr configFpr cf).2.1
      = (⟨-1, recsF, none⟩ : RecordsOutput) := by
    simp [stage2Step, fallback, hsr, hpl, hst, href]
  unfold pipelineRecords runPool
  rw [runPool_serial_clean_fail configFpr hneg cs cf [] hclean]
  show readAllReassemble ([] ++ cs.map cleanOutput ++ [(stage2Step configFpr configFpr cf).2.1])
      = _
  rw [hstep, List.nil_append]
  unfold readAllReassemble
  have hhyp : ∀ (i : Nat) (o : RecordsOutput),
      (cs.map cleanOutput ++ [(⟨-1, recsF, none⟩ : RecordsOutput)]).get? i = some o →
      o.err = none ∧ o.sequence ≤ ((0 + i : Nat) : Int) := by
    intro i o hio
    by_cases hi : i < cs.length
    · rw [List.get?_append (by simpa using hi)] at hio
      rw [List.get?_map] at hio
      obtain ⟨c, hc, rfl⟩ := Option.map_eq_some'.mp hio
      refine ⟨cleanOutput_err c, ?_⟩
      have hseqi : c.sequence = (i : Int) := by
        have hmap := congrArg (fun l => l.get? i) hseqs
        simp only [List.get?_map, hc, List.get?_range hi, Option.map_some'] at hmap
        exact Option.some_injective _ hmap
      rw [cleanOutput_sequence, hseqi]
      push_cast
      omega
    · rw [List.get?_append_right (by simpa using not_lt.mp hi)] at hio
      cases hj : i - (cs.map cleanOutput).length with
      | zero =>
        rw [hj] at hio
        cases hio
        exact ⟨rfl, by push_cast; omega⟩
      | succ m =>
        rw [hj] at hio
        cases hio
  have hrun := readAllGo_no_stash (cs.map cleanOutput ++ [⟨-1, recsF, none⟩]) 0 [] hhyp
  rw [Nat.cast_zero] at hrun
  rw [hrun]
  simp [List.map_append, List.map_map, List.flatten_append, Function.comp_def]

/-- C1 amended witness: one clean chunk followed by a failing final chunk,
processed serially — the fallback records land after the clean chunk's
records. -/
theorem fallback_lands_at_cursor_when_serial_witness :
    pipelineRecords (-1)
        ([⟨0, [], some "a,b,c\n".toList, some [["a", "b", "c"]]⟩]
          ++ [⟨1, [], some "1,2\n".toList, none⟩]) []
        (serialSched ([(⟨0, [], some "a,b,c\n".toList,
            some [["a", "b", "c"]]⟩ : ChunkWork)].length + 1))
      = Except.ok ((([(⟨0, [], some "a,b,c\n".toList,
            some [["a", "b", "c"]]⟩ : ChunkWork)]).map
          (fun c => (cleanOutput c).records)).flatten ++ [["1", "2"]]) := by
  refine fallback_lands_at_cursor_when_serial (-1) (by decide)
    [⟨0, [], some "a,b,c\n".toList, some [["a", "b", "c"]]⟩]
    ⟨1, [], some "1,2\n".toList, none⟩ ("1,2\n".toList) [["1", "2"]] ?_ rfl rfl rfl rfl rfl
  intro c hc
  simp only [List.mem_singleton] at hc
  subst hc
  exact ⟨Or.inl rfl, Or.inr (by simp)⟩

/-- C4 amended: the output of ReadAll is a deterministic function of the
input bytes, the configuration, and the worker schedule; it is
schedule-independent whenever no chunk takes the fallback path — in
particular when FieldsPerRecord is negative (checks disabled, so the shared
counter is never written) and every chunk parses cleanly: then any two
completing schedules yield the same record lists, namely the per-chunk
records in ascending sequence order.  With FieldsPerRecord = 0 the pinned
value depends on which worker first observes a row, and different schedules
can yield different lists. -/
theorem pipeline_schedule_independent (configFpr : Int) (hneg : configFpr < 0)
    (w0 w1 : List ChunkWork) (n : Nat)
    (hclean : ∀ c ∈ w0 ++ w1, cleanChunk c)
    (hseq : List.Perm ((w0 ++ w1).map (fun c => c.sequence))
      ((List.range n).map (fun k : Nat => (k : Int))))
    (sched sched' : List Bool)
    (hdone : poolDone (runPool configFpr w0 w1 sched))
    (hdone' : poolDone (runPool configFpr w0 w1 sched')) :
    pipelineRecords configFpr w0 w1 sched = pipelineRecords configFpr w0 w1 sched' ∧
    pipelineRecords configFpr w0 w1 sched
      = Except.ok (((List.range n).map
          (recsAt ((w0 ++ w1).map cleanOutput))).flatten) := by
  have h1 := pipeline_canonical configFpr hneg w0 w1 n sched hclean hseq hdone
  have h2 := pipeline_canonical configFpr hneg w0 w1 n sched' hclean hseq hdone'
  exact ⟨h1.trans h2.symm, h1⟩

/-- C4 amended witness: the two schedules of the counterexample, with
FieldsPerRecord negative instead of zero, produce identical record lists. -/
theorem pipeline_schedule_independent_witness :
    pipelineRecords (-1) [⟨0, [], some "a,b,c\n".toList, some [["a", "b", "c"]]⟩]
        [⟨1, [], some "1,2\n".toList, some [["1", "2"]]⟩] [false, false, true, true]
      = pipelineRecords (-1) [⟨0, [], some "a,b,c\n".toList, some [["a", "b", "c"]]⟩]
        [⟨1, [], some "1,2\n".toList, some [["1", "2"]]⟩] [false, true, true, false] := by
  refine (pipeline_schedule_independent (-1) (by decide)
    [⟨0, [], some "a,b,c\n".toList, some [["a", "b", "c"]]⟩]
    [⟨1, [], some "1,2\n".toList, some [["1", "2"]]⟩] 2 ?_ (by decide)
    [false, false, true, true] [false, true, true, false]
    (by decide) (by decide)).1
  intro c hc
  simp only [List.cons_append, List.nil_append, List.mem_cons, List.not_mem_nil,
    or_false] at hc
  rcases hc with rfl | rfl
  · exact ⟨Or.inl rfl, Or.inr (by simp)⟩
  · exact ⟨Or.inl rfl, Or.inr (by simp)⟩

/-- C10: a read that returns data together with io.EOF — which the io.Reader
contract permits — drives the producer loop into the panic branch with
message last buffer should be empty, while the same stream whose source
signals EOF by a separate zero-byte read is processed without panic and
delivers the final chunk. -/
theorem producer_panics_on_data_with_eof :
    producer [⟨[97], none⟩, ⟨[98], some ReadErrKind.eof⟩]
      = Except.error "last buffer should be empty" ∧
    producer [⟨[97], none⟩, ⟨[], some ReadErrKind.eof⟩]
      = Except.ok [⟨[97], true⟩] := ⟨rfl, rfl⟩

/-- C3: a non-EOF upstream read error is only logged by the producer: a
stream whose second read fails with a disk error produces exactly the same
chunk sequence, with no error recorded anywhere (ChunkIn carries no error
field), as a stream ending in a clean EOF — so the error can never reach the
consumer as a RecordsOutput, and a first-read failure yields an empty stream
with no error at all. -/
theorem read_error_not_propagated :
    producer [⟨[97], none⟩, ⟨[98], some (ReadErrKind.other "disk failure")⟩]
      = Except.ok [⟨[97], true⟩] ∧
    producer [⟨[97], none⟩, ⟨[], some ReadErrKind.eof⟩]
      = Except.ok [⟨[97], true⟩] ∧
    producer [⟨[], some (ReadErrKind.other "disk failure")⟩]
      = Except.ok [] := ⟨rfl, rfl, rfl⟩

/-- C9 counterexample: the streaming chunk size computed by readAllStreaming
is 320000 bytes, not 320 KiB = 327680 bytes as the claim states; the rounding
step leaves 320000 unchanged since it is already a multiple of 64. -/
theorem chunkSize_not_320KiB : chunkSize ≠ 327680 ∧ chunkSize = 320000 := by
  constructor <;> decide

/-- C9 amended: the producer's chunk size is 320000 bytes (320 KB in decimal
units), which is already a multiple of 64, so the round-up to a multiple of
64 leaves it unchanged. -/
theorem chunkSize_eq_320000 :
    chunkSize = 320000 ∧ chunkSize % 64 = 0 ∧ chunkSize = andNot63 (320000 + 63) := by
  refine ⟨by decide, by decide, rfl⟩

/-- C7 counterexample: the delimiter rune 233 (a non-ASCII Latin-1 code
point) is accepted by the delimiter validation, does not trigger the
whole-stream fallback guard, and hence is processed by the SIMD path, even
though it lies outside the ASCII subset; the guard only rejects runes above
unicode.MaxLatin1 = 255. -/
theorem nonAscii_delim_no_fallback :
    isAsciiRune 233 = false ∧
    wholeStreamFallbackGuard false 233 0 = false ∧
    invalidDelimGuard 233 0 = false := by
  refine ⟨by decide, by decide, by decide⟩

/-- C7 amended: with LazyQuotes off and no comment rune, the whole-stream
fallback is forced exactly for delimiters above unicode.MaxLatin1 (code point
255), not for all non-ASCII delimiters; moreover a delimiter in the Latin-1
range 128..255 is accepted by the delimiter validation and passes the
invalid-delimiter guard, so the SIMD path runs on it. -/
theorem fallback_iff_above_latin1 (comma : Int) (h0 : comma ≠ 0) :
    (wholeStreamFallbackGuard false comma 0 = true ↔ comma > 255) ∧
    (128 ≤ comma → comma ≤ 255 →
      validDelim comma = true ∧ invalidDelimGuard comma 0 = false) := by
  have hguard : wholeStreamFallbackGuard false comma 0 = decide (comma > 255) := by
    simp only [wholeStreamFallbackGuard, maxLatin1]
    by_cases hgt : comma > (255 : Int)
    · simp [hgt, h0]
    · simp [hgt]
  constructor
  · rw [hguard]
    simp
  · intro h128 h255
    have hvalid : validDelim comma = true := by
      simp only [validDelim, validRune, Bool.and_eq_true, Bool.or_eq_true,
        decide_eq_true_eq, ne_eq]
      refine ⟨⟨⟨⟨⟨by omega, by omega⟩, by omega⟩, by omega⟩, Or.inl ⟨by omega, by omega⟩⟩, by omega⟩
    refine ⟨hvalid, ?_⟩
    simp [invalidDelimGuard, hvalid, h0]

/-- C7 amended witness: instantiation at the delimiter 233. -/
theorem fallback_iff_above_latin1_witness :
    ((wholeStreamFallbackGuard false 233 0 = true ↔ (233 : Int) > 255) ∧
      (validDelim 233 = true ∧ invalidDelimGuard 233 0 = false)) := by
  have h := fallback_iff_above_latin1 233 (by decide)
  exact ⟨h.1, h.2 (by decide) (by decide)⟩


/-- C6: chunk boundary safety (spec invariant I5).  (1) No structural-mask
bit of a chunk's header prefix or trailer suffix reaches the Stage-2 kernel:
the clipping of stage2Streaming (simdcsv.go lines 331-348) clears the
partially visible words and the buffer/mask slicing (line 351) skips the
others.  (2) The first chunk's splitRow is empty, and (3) every later
chunk's splitRow is exactly the previous chunk's trailer bytes joined with
the chunk's own header bytes (stage1Streaming lines 290 and 298-299).
(4) The worker parses the splitRow with the scalar reference parser and
places its records before the chunk's own records in the emitted output
(stage2Streaming lines 319-327 and 399). -/
theorem chunk_boundary_safety :
    (∀ (masks : List MaskTriple) (header trailer len p : Nat),
        (len = 64 * masks.length ∨ trailer = 0) → header + trailer ≤ len →
        (p < header ∨ (len - trailer ≤ p ∧ p < len)) →
        stage2Sees masks header trailer len p = false) ∧
    (∀ (inputs : List ChunkS1), 0 < inputs.length → splitRowAt inputs 0 = []) ∧
    (∀ (inputs : List ChunkS1) (k : Nat), k + 1 < inputs.length →
        splitRowAt inputs (k + 1) =
          (chunkAt inputs k).buf.drop
              ((chunkAt inputs k).buf.length - trailerAt inputs k) ++
            (chunkAt inputs (k + 1)).buf.take (headerAt inputs (k + 1))) ∧
    (∀ (configFpr fpr fpr' seq : Int) (sr p : List Char)
        (recs rs : List (List String)),
        sr ≠ [] → refParseAll 0 sr = Except.ok rs →
        ensureFieldsPerRecord (rs ++ recs) fpr = (fpr', Except.ok (rs ++ recs)) →
        stage2Step configFpr fpr ⟨seq, sr, some p, some recs⟩ =
          (fpr', ⟨seq, rs ++ recs, none⟩, false)) :=
  ⟨fun masks header trailer len p hcov hht hp =>
      stage2Sees_false_outside masks header trailer len p hcov hht hp,
   fun inputs h => splitRowAt_zero inputs h,
   fun inputs k h => splitRowAt_succ inputs k h,
   fun configFpr fpr fpr' seq sr p recs rs hsr hrs hens =>
      stage2Step_splitRecs_first configFpr fpr fpr' seq sr p recs rs hsr hrs hens⟩

theorem chunk_boundary_safety_witness :
    stage2Sees [⟨2, 0, 0⟩, ⟨0, 0, 0⟩] 1 0 128 0 = false ∧
    splitRowAt [⟨[7], false, [⟨1, 0, 0⟩]⟩, ⟨[9], true, [⟨1, 0, 0⟩]⟩] 0 = [] ∧
    splitRowAt [⟨[7], false, [⟨1, 0, 0⟩]⟩, ⟨[9], true, [⟨1, 0, 0⟩]⟩] 1 =
      (chunkAt [⟨[7], false, [⟨1, 0, 0⟩]⟩, ⟨[9], true, [⟨1, 0, 0⟩]⟩] 0).buf.drop
          ((chunkAt [⟨[7], false, [⟨1, 0, 0⟩]⟩, ⟨[9], true, [⟨1, 0, 0⟩]⟩] 0).buf.length -
            trailerAt [⟨[7], false, [⟨1, 0, 0⟩]⟩, ⟨[9], true, [⟨1, 0, 0⟩]⟩] 0) ++
        (chunkAt [⟨[7], false, [⟨1, 0, 0⟩]⟩, ⟨[9], true, [⟨1, 0, 0⟩]⟩] 1).buf.take
          (headerAt [⟨[7], false, [⟨1, 0, 0⟩]⟩, ⟨[9], true, [⟨1, 0, 0⟩]⟩] 1) ∧
    stage2Step (-1) (-1) ⟨0, ['a', '\n'], some [], some [["b"]]⟩ =
      (-1, ⟨0, [["a"]] ++ [["b"]], none⟩, false) :=
  ⟨chunk_boundary_safety.1 [⟨2, 0, 0⟩, ⟨0, 0, 0⟩] 1 0 128 0 (Or.inl (by decide))
      (by decide) (Or.inl (by decide)),
   chunk_boundary_safety.2.1 [⟨[7], false, [⟨1, 0, 0⟩]⟩, ⟨[9], true, [⟨1, 0, 0⟩]⟩]
      (by decide),
   chunk_boundary_safety.2.2.1 [⟨[7], false, [⟨1, 0, 0⟩]⟩, ⟨[9], true, [⟨1, 0, 0⟩]⟩] 0
      (by decide),
   chunk_boundary_safety.2.2.2 (-1) (-1) (-1) 0 ['a', '\n'] [] [["b"]] [["a"]]
      (by decide) (by rfl) (by rfl)⟩

end Simdcsv
